import Mathlib

/-!
Verification of the core of `read.rs` (a typed, streaming value-extraction
engine): a shallow embedding of `src/read/buffer.rs` (the lookahead buffer),
`src/read/parse.rs` (the format-string parser) and `src/read/rt.rs` (the
scanning runtime), together with theorems settling the frozen claims.

Bytes are modelled as `Nat` (values < 256 in every scenario), byte views as
`List Nat`, and Rust strings as `List Char` (all index arithmetic in the
embedded code slices at codepoint boundaries, so char indices are a faithful
reindexing of the original byte indices).  Fallible operations return
`Except`/`Option`; the `IoError` payload is opaque in the source and is
modelled as `Unit`.  Loops whose termination depends on the byte source are
given explicit fuel and report exhaustion through a dedicated constructor, so
every definition stays executable.
-/

namespace ReadRs

/-- A byte (always < 256 in the scenarios considered). -/
abbrev Byte := Nat

/-- The chunked byte source, translated from `SimulatedBuffer` in the tests of
`src/read/buffer.rs` (the repository's own model of the opaque `Buffer`
collaborator).  The Rust struct holds `calls` (the chunk list), `index` and
`pos`; here the same state is represented as `cur = calls[index][pos..]` (the
unconsumed part of the current chunk) and `rest = calls[index+1..]`. -/
structure SimulatedBuffer where
  cur : List Byte
  rest : List (List Byte)
deriving DecidableEq, Repr

/-- `SimulatedBuffer::fill`: if the current chunk is exhausted, advance to the
next chunk (one step, as in the Rust `if self.pos == self.calls[self.index].len()`);
return the remaining view of the current chunk, or `none` (the end-of-file
`IoError`) when no chunk remains. -/
def SimulatedBuffer.fill : SimulatedBuffer → Option (List Byte) × SimulatedBuffer
  | ⟨[], []⟩ => (none, ⟨[], []⟩)
  | ⟨[], c :: r⟩ => (some c, ⟨c, r⟩)
  | ⟨b :: cs, r⟩ => (some (b :: cs), ⟨b :: cs, r⟩)

/-- `SimulatedBuffer::consume`: advance past `amt` bytes of the current chunk. -/
def SimulatedBuffer.consume (src : SimulatedBuffer) (amt : Nat) : SimulatedBuffer :=
  ⟨src.cur.drop amt, src.rest⟩

/-- Termination measure for the pull loop of `fill_request`: each absorbed
chunk strictly decreases it. -/
def SimulatedBuffer.weight (src : SimulatedBuffer) : Nat :=
  2 * src.rest.length + (if src.cur = [] then 0 else 1)

theorem SimulatedBuffer.fill_some_weight (src src2 : SimulatedBuffer) (buf : List Byte)
    (h : src.fill = (some buf, src2)) :
    (src2.consume buf.length).weight < src.weight := by
  rcases src with ⟨cur, rest⟩
  cases cur with
  | nil =>
    cases rest with
    | nil => simp [SimulatedBuffer.fill] at h
    | cons c r =>
      simp only [SimulatedBuffer.fill, Prod.mk.injEq, Option.some.injEq] at h
      obtain ⟨rfl, rfl⟩ := h
      simp [SimulatedBuffer.consume, SimulatedBuffer.weight, List.drop_length]
  | cons b cs =>
    simp only [SimulatedBuffer.fill, Prod.mk.injEq, Option.some.injEq] at h
    obtain ⟨rfl, rfl⟩ := h
    simp [SimulatedBuffer.consume, SimulatedBuffer.weight, List.drop_length]

/-- `LookaheadBuffer` (`src/read/buffer.rs`): the accumulation buffer `saved`,
the read cursor `savedpos`, and the sticky error slot `savederr`, wrapping one
byte source. -/
structure LookaheadBuffer where
  src : SimulatedBuffer
  saved : List Byte
  savedpos : Nat
  savederr : Option Unit
deriving DecidableEq, Repr

/-- The pull loop inside `fill_request` (lines 63-76 of `buffer.rs`): keep
filling and absorbing chunks until `saved` reaches `minlen`; on a source error
record it in `savederr` and stop.  Note the faithful quirk: the chunk that
makes `saved` reach `minlen` is pushed but the `break` skips the trailing
`self.buf.consume(consume)`, so that chunk is not consumed from the source. -/
def fillLoop (st : LookaheadBuffer) (minlen : Nat) : LookaheadBuffer :=
  match h : st.src.fill with
  | (none, src2) => { st with src := src2, savederr := some () }
  | (some buf, src2) =>
    let saved2 := st.saved ++ buf
    if saved2.length ≥ minlen then { st with saved := saved2, src := src2 }
    else fillLoop { st with saved := saved2, src := src2.consume buf.length } minlen
termination_by st.src.weight
decreasing_by exact SimulatedBuffer.fill_some_weight st.src src2 buf h

/-- The common tail of `fill_request` (lines 61-79): run the pull loop when the
saved bytes are insufficient and no error is recorded, then return the unread
part of `saved`. -/
def fillTail (st : LookaheadBuffer) (amt : Nat) : Except Unit (List Byte) × LookaheadBuffer :=
  let minlen := st.savedpos + amt
  let st2 := if st.saved.length < minlen ∧ st.savederr.isNone then fillLoop st minlen else st
  (.ok (st2.saved.drop st2.savedpos), st2)

/-- `LookaheadBuffer::fill_request` (lines 16-80 of `buffer.rs`).  When the
saved buffer is exhausted: surface a recorded error, otherwise try the fast
path (return the source's own view directly when it already satisfies `amt`,
re-calling `fill` exactly as the borrow-juggling Rust does), else absorb the
insufficient chunk into a cleared `saved` and fall through to the pull loop. -/
def fillRequest (st : LookaheadBuffer) (amt : Nat) : Except Unit (List Byte) × LookaheadBuffer :=
  if st.savedpos = st.saved.length then
    match st.savederr with
    | some e => (.error e, { st with savederr := none })
    | none =>
      match st.src.fill with
      | (none, src2) => (.error (), { st with src := src2 })
      | (some buf, src2) =>
        if buf.length ≥ amt then
          match src2.fill with
          | (none, src3) => (.error (), { st with src := src3 })
          | (some buf2, src3) => (.ok buf2, { st with src := src3 })
        else
          fillTail { st with saved := buf, savedpos := 0, src := src2.consume buf.length } amt
  else
    fillTail st amt

/-- `LookaheadBuffer::consume` (lines 198-205): forward to the source when the
saved buffer is exhausted, otherwise advance the cursor. -/
def LookaheadBuffer.consume (st : LookaheadBuffer) (amt : Nat) : LookaheadBuffer :=
  if st.savedpos = st.saved.length then { st with src := st.src.consume amt }
  else { st with savedpos := st.savedpos + amt }

theorem SimulatedBuffer.fill_some_cur (src src2 : SimulatedBuffer) (buf : List Byte)
    (h : src.fill = (some buf, src2)) : src2.cur = buf := by
  rcases src with ⟨cur, rest⟩
  cases cur with
  | nil =>
    cases rest with
    | nil => simp [SimulatedBuffer.fill] at h
    | cons c r =>
      simp only [SimulatedBuffer.fill, Prod.mk.injEq, Option.some.injEq] at h
      obtain ⟨rfl, rfl⟩ := h
      rfl
  | cons b cs =>
    simp only [SimulatedBuffer.fill, Prod.mk.injEq, Option.some.injEq] at h
    obtain ⟨rfl, rfl⟩ := h
    rfl

theorem SimulatedBuffer.fill_of_cur_ne (src : SimulatedBuffer) (h : src.cur ≠ []) :
    src.fill = (some src.cur, src) := by
  rcases src with ⟨cur, rest⟩
  cases cur with
  | nil => simp at h
  | cons b cs => rfl

theorem SimulatedBuffer.fill_none (src src2 : SimulatedBuffer)
    (h : src.fill = (none, src2)) : src = ⟨[], []⟩ ∧ src2 = ⟨[], []⟩ := by
  rcases src with ⟨cur, rest⟩
  cases cur with
  | nil =>
    cases rest with
    | nil =>
      simp only [SimulatedBuffer.fill, Prod.mk.injEq] at h
      exact ⟨rfl, h.2.symm⟩
    | cons c r => simp [SimulatedBuffer.fill] at h
  | cons b cs => simp [SimulatedBuffer.fill] at h

theorem SimulatedBuffer.fill_some_weight_pos (src src2 : SimulatedBuffer) (buf : List Byte)
    (h : src.fill = (some buf, src2)) : 1 ≤ src.weight := by
  have := SimulatedBuffer.fill_some_weight src src2 buf h
  omega

theorem fillLoop_props : ∀ (w : Nat) (st : LookaheadBuffer) (minlen : Nat),
    st.src.weight ≤ w →
    (fillLoop st minlen).savedpos = st.savedpos ∧
      ((fillLoop st minlen).saved.length ≥ minlen ∨
        ((fillLoop st minlen).savederr = some () ∧ (fillLoop st minlen).src = ⟨[], []⟩)) := by
  intro w
  induction w with
  | zero =>
    intro st minlen hw
    rw [fillLoop]
    split
    · next src2 heq =>
      refine ⟨rfl, Or.inr ⟨rfl, ?_⟩⟩
      exact (SimulatedBuffer.fill_none st.src src2 heq).2
    · next buf src2 heq =>
      exact absurd (SimulatedBuffer.fill_some_weight_pos st.src src2 buf heq) (by omega)
  | succ w ih =>
    intro st minlen hw
    rw [fillLoop]
    split
    · next src2 heq =>
      refine ⟨rfl, Or.inr ⟨rfl, ?_⟩⟩
      exact (SimulatedBuffer.fill_none st.src src2 heq).2
    · next buf src2 heq =>
      by_cases hge : (st.saved ++ buf).length ≥ minlen
      · rw [if_pos hge]
        exact ⟨rfl, Or.inl hge⟩
      · rw [if_neg hge]
        have hwlt := SimulatedBuffer.fill_some_weight st.src src2 buf heq
        exact ih { st with saved := st.saved ++ buf, src := src2.consume buf.length } minlen
          (by show (src2.consume buf.length).weight ≤ w; omega)

theorem fillLoop_savedpos (st : LookaheadBuffer) (minlen : Nat) :
    (fillLoop st minlen).savedpos = st.savedpos :=
  (fillLoop_props st.src.weight st minlen le_rfl).1

theorem fillLoop_reach (st : LookaheadBuffer) (minlen : Nat) :
    (fillLoop st minlen).saved.length ≥ minlen ∨
      ((fillLoop st minlen).savederr = some () ∧ (fillLoop st minlen).src = ⟨[], []⟩) :=
  (fillLoop_props st.src.weight st minlen le_rfl).2

theorem fillLoop_savederr_of_none (st : LookaheadBuffer) (minlen : Nat)
    (h0 : st.savederr = none) (hshort : (fillLoop st minlen).saved.length < minlen) :
    (fillLoop st minlen).savederr = some () ∧ (fillLoop st minlen).src = ⟨[], []⟩ := by
  rcases fillLoop_reach st minlen with h | h
  · omega
  · exact h

theorem fillTail_ok (st : LookaheadBuffer) (amt : Nat) :
    ∃ v st2, fillTail st amt = (Except.ok v, st2) := ⟨_, _, rfl⟩

/-- C4: a terminal condition recorded by the buffer is surfaced by
`fill_request` exactly once (the slot is cleared on surfacing), and only when
every buffered byte has been delivered; while unread buffered bytes remain,
`fill_request` always returns a view, never the error. -/
theorem fillTail_run (st : LookaheadBuffer) (amt : Nat)
    (h : st.saved.length < st.savedpos + amt ∧ st.savederr.isNone = true) :
    fillTail st amt =
      (.ok ((fillLoop st (st.savedpos + amt)).saved.drop st.savedpos),
        fillLoop st (st.savedpos + amt)) := by
  rw [fillTail]
  simp only [if_pos h]
  rw [fillLoop_savedpos]

theorem fillTail_skip (st : LookaheadBuffer) (amt : Nat)
    (h : ¬(st.saved.length < st.savedpos + amt ∧ st.savederr.isNone = true)) :
    fillTail st amt = (.ok (st.saved.drop st.savedpos), st) := by
  rw [fillTail]
  simp only [if_neg h]

theorem fillRequest_sticky (st : LookaheadBuffer) (amt : Nat) (e : Unit)
    (hpos : st.savedpos = st.saved.length) (herr : st.savederr = some e) :
    fillRequest st amt = (.error e, { st with savederr := none }) := by
  rw [fillRequest, if_pos hpos]
  simp only [herr]

theorem fillRequest_fast (st : LookaheadBuffer) (amt : Nat) (buf : List Byte)
    (src2 : SimulatedBuffer) (hpos : st.savedpos = st.saved.length)
    (herr : st.savederr = none) (hf : st.src.fill = (some buf, src2))
    (hge : buf.length ≥ amt) (hne : buf ≠ []) :
    fillRequest st amt = (.ok buf, { st with src := src2 }) := by
  have hcur : src2.cur = buf := SimulatedBuffer.fill_some_cur _ _ _ hf
  have hf2 : src2.fill = (some buf, src2) := by
    rw [← hcur] at hne ⊢
    exact SimulatedBuffer.fill_of_cur_ne src2 hne
  rw [fillRequest, if_pos hpos]
  simp only [herr, hf, if_pos hge, hf2]

theorem fillRequest_insufficient (st : LookaheadBuffer) (amt : Nat) (buf : List Byte)
    (src2 : SimulatedBuffer) (hpos : st.savedpos = st.saved.length)
    (herr : st.savederr = none) (hf : st.src.fill = (some buf, src2))
    (hlt : ¬buf.length ≥ amt) :
    fillRequest st amt =
      fillTail { st with saved := buf, savedpos := 0, src := src2.consume buf.length } amt := by
  rw [fillRequest, if_pos hpos]
  simp only [herr, hf, if_neg hlt]

theorem fillRequest_buffered (st : LookaheadBuffer) (amt : Nat)
    (hpos : ¬st.savedpos = st.saved.length) :
    fillRequest st amt = fillTail st amt := by
  rw [fillRequest, if_neg hpos]

theorem fillRequest_source_err (st : LookaheadBuffer) (amt : Nat) (src2 : SimulatedBuffer)
    (hpos : st.savedpos = st.saved.length) (herr : st.savederr = none)
    (hf : st.src.fill = (none, src2)) :
    fillRequest st amt = (.error (), { st with src := src2 }) := by
  rw [fillRequest, if_pos hpos]
  simp only [herr, hf]

/-- C4: a terminal condition recorded by the buffer is surfaced by
`fill_request` exactly once (the slot is cleared on surfacing), and only when
every buffered byte has been delivered; while unread buffered bytes remain,
`fill_request` always returns a view, never the error. -/
theorem c4_sticky_error_replay (st : LookaheadBuffer) (amt : Nat) :
    (st.savedpos < st.saved.length → ∃ v st2, fillRequest st amt = (.ok v, st2)) ∧
    (∀ e st2, fillRequest st amt = (.error e, st2) →
      st.savedpos = st.saved.length ∧ st2.savederr = none) ∧
    (∀ e, st.savedpos = st.saved.length → st.savederr = some e →
      fillRequest st amt = (.error e, { st with savederr := none })) := by
  refine ⟨?_, ?_, ?_⟩
  · intro hlt
    rw [fillRequest_buffered st amt (by omega)]
    exact fillTail_ok st amt
  · intro e st2 h
    by_cases hpos : st.savedpos = st.saved.length
    · rcases herr : st.savederr with _ | e0
      · rcases hf : st.src.fill with ⟨b?, src2⟩
        cases b? with
        | none =>
          rw [fillRequest_source_err st amt src2 hpos herr hf] at h
          simp only [Prod.mk.injEq, Except.error.injEq] at h
          refine ⟨hpos, ?_⟩
          rw [← h.2]
          exact herr
        | some buf =>
          by_cases hge : buf.length ≥ amt
          · by_cases hne : buf = []
            · subst hne
              rw [fillRequest, if_pos hpos] at h
              simp only [herr, hf, if_pos hge] at h
              rcases hf2 : src2.fill with ⟨c?, src3⟩
              cases c? with
              | none =>
                simp only [hf2] at h
                have h2 : ({ st with src := src3, savederr := none } : LookaheadBuffer) = st2 :=
                  congrArg Prod.snd h
                exact ⟨hpos, by rw [← h2]⟩
              | some buf2 =>
                simp only [hf2] at h
                exact absurd h (by simp)
            · rw [fillRequest_fast st amt buf src2 hpos herr hf hge hne] at h
              simp at h
          · rw [fillRequest_insufficient st amt buf src2 hpos herr hf hge] at h
            obtain ⟨v, st3, hok⟩ := fillTail_ok
              { st with saved := buf, savedpos := 0, src := src2.consume buf.length } amt
            rw [hok] at h
            simp at h
      · rw [fillRequest_sticky st amt e0 hpos herr] at h
        simp only [Prod.mk.injEq, Except.error.injEq] at h
        refine ⟨hpos, ?_⟩
        rw [← h.2]
    · rw [fillRequest_buffered st amt hpos] at h
      obtain ⟨v, st3, hok⟩ := fillTail_ok st amt
      rw [hok] at h
      simp at h
  · intro e hpos herr
    exact fillRequest_sticky st amt e hpos herr

/-- C6: `fill_request` returns a view shorter than the requested minimum only
when the source has reached its terminal condition: the sticky error slot is
then occupied, and (unless an error had already been recorded earlier) the
source itself has been fully drained. -/
theorem c6_fill_request_sufficiency (st : LookaheadBuffer) (amt : Nat) (v : List Byte)
    (st2 : LookaheadBuffer) (h : fillRequest st amt = (.ok v, st2)) (hlt : v.length < amt) :
    st2.savederr.isSome = true ∧ (st.savederr = none → st2.src = ⟨[], []⟩) := by
  by_cases hpos : st.savedpos = st.saved.length
  · rcases herr : st.savederr with _ | e0
    · rcases hf : st.src.fill with ⟨b?, src2⟩
      cases b? with
      | none =>
        rw [fillRequest_source_err st amt src2 hpos herr hf] at h
        simp at h
      | some buf =>
        by_cases hge : buf.length ≥ amt
        · by_cases hne : buf = []
          · subst hne
            simp only [List.length_nil, ge_iff_le, Nat.le_zero] at hge
            omega
          · rw [fillRequest_fast st amt buf src2 hpos herr hf hge hne] at h
            simp only [Prod.mk.injEq, Except.ok.injEq] at h
            rw [← h.1] at hlt
            omega
        · rw [fillRequest_insufficient st amt buf src2 hpos herr hf hge] at h
          generalize hstb :
            ({ st with saved := buf, savedpos := 0, src := src2.consume buf.length } :
              LookaheadBuffer) = stb at h
          have hsv : stb.saved = buf := by rw [← hstb]
          have hsp : stb.savedpos = 0 := by rw [← hstb]
          have hse : stb.savederr = none := by
            rw [← hstb]
            exact herr
          rw [fillTail_run stb amt ⟨by rw [hsv, hsp]; omega, by rw [hse]; rfl⟩] at h
          simp only [Prod.mk.injEq, Except.ok.injEq] at h
          have hshort : (fillLoop stb (stb.savedpos + amt)).saved.length <
              stb.savedpos + amt := by
            rw [← h.1] at hlt
            simp only [List.length_drop] at hlt
            omega
          have hres := fillLoop_savederr_of_none stb (stb.savedpos + amt) hse hshort
          rw [← h.2]
          simp [hres.1, hres.2]
    · rw [fillRequest_sticky st amt e0 hpos herr] at h
      simp at h
  · rw [fillRequest_buffered st amt hpos] at h
    by_cases hc : st.saved.length < st.savedpos + amt ∧ st.savederr.isNone = true
    · rw [fillTail_run st amt hc] at h
      simp only [Prod.mk.injEq, Except.ok.injEq] at h
      have hps := fillLoop_savedpos st (st.savedpos + amt)
      have hshort : (fillLoop st (st.savedpos + amt)).saved.length < st.savedpos + amt := by
        rw [← h.1] at hlt
        simp only [List.length_drop] at hlt
        omega
      have herr0 : st.savederr = none := Option.isNone_iff_eq_none.mp hc.2
      have hres := fillLoop_savederr_of_none st (st.savedpos + amt) herr0 hshort
      rw [← h.2]
      simp [hres.1, hres.2]
    · rw [fillTail_skip st amt hc] at h
      simp only [Prod.mk.injEq, Except.ok.injEq] at h
      rcases he : st.savederr with _ | e0
      · exfalso
        rw [← h.1] at hlt
        simp only [List.length_drop] at hlt
        simp only [he, Option.isNone_none, and_true, not_lt] at hc
        omega
      · rw [← h.2]
        simp only [he, Option.isSome_some, true_and]
        intro hnone
        exact Option.noConfusion hnone

/-- C7: two successive `fill_request` calls with no intervening consume, the
second asking for `m ≤ n` bytes, return views agreeing on their first `n`
bytes (in fact coinciding except in the degenerate `n = 0` case). -/
theorem c7_lookahead_consistency (st st1 st2 : LookaheadBuffer) (n m : Nat)
    (v1 v2 : List Byte) (hmn : m ≤ n)
    (h1 : fillRequest st n = (.ok v1, st1)) (h2 : fillRequest st1 m = (.ok v2, st2)) :
    v2.take n = v1.take n := by
  by_cases hpos : st.savedpos = st.saved.length
  · rcases herr : st.savederr with _ | e0
    · rcases hf : st.src.fill with ⟨b?, src2⟩
      cases b? with
      | none =>
        rw [fillRequest_source_err st n src2 hpos herr hf] at h1
        simp at h1
      | some buf =>
        by_cases hge : buf.length ≥ n
        · by_cases hne : buf = []
          · have hn : n = 0 := by
              subst hne
              simpa using hge
            simp [hn]
          · rw [fillRequest_fast st n buf src2 hpos herr hf hge hne] at h1
            simp only [Prod.mk.injEq, Except.ok.injEq] at h1
            obtain ⟨hv1, hst1⟩ := h1
            have hcur : src2.cur = buf := SimulatedBuffer.fill_some_cur _ _ _ hf
            have hf1 : st1.src.fill = (some buf, st1.src) := by
              rw [← hst1]
              have : src2.fill = (some buf, src2) := by
                rw [← hcur] at hne ⊢
                exact SimulatedBuffer.fill_of_cur_ne src2 hne
              simpa using this
            have hpos1 : st1.savedpos = st1.saved.length := by
              rw [← hst1]
              exact hpos
            have herr1 : st1.savederr = none := by
              rw [← hst1]
              exact herr
            have := fillRequest_fast st1 m buf st1.src hpos1 herr1 hf1
              (le_trans hmn hge) hne
            rw [this] at h2
            simp only [Prod.mk.injEq, Except.ok.injEq] at h2
            rw [← h2.1, ← hv1]
        · rw [fillRequest_insufficient st n buf src2 hpos herr hf hge] at h1
          generalize hstb :
            ({ st with saved := buf, savedpos := 0, src := src2.consume buf.length } :
              LookaheadBuffer) = stb at h1
          have hsv : stb.saved = buf := by rw [← hstb]
          have h0 : stb.savedpos = 0 := by rw [← hstb]
          have hse : stb.savederr = none := by
            rw [← hstb]
            exact herr
          rw [fillTail_run stb n ⟨by rw [hsv, h0]; omega, by rw [hse]; rfl⟩] at h1
          simp only [Prod.mk.injEq, Except.ok.injEq] at h1
          obtain ⟨hv1, hst1⟩ := h1
          have hps : st1.savedpos = 0 := by
            rw [← hst1, fillLoop_savedpos, h0]
          rcases fillLoop_reach stb (stb.savedpos + n) with hlen | herr2
          · rw [hst1, h0] at hlen
            by_cases hnil : st1.saved.length = 0
            · have hn : n = 0 := by omega
              simp [hn]
            · have hne1 : ¬st1.savedpos = st1.saved.length := by omega
              rw [fillRequest_buffered st1 m hne1] at h2
              rw [fillTail_skip st1 m (by
                intro hcc
                have hl := hcc.1
                omega)] at h2
              simp only [Prod.mk.injEq, Except.ok.injEq] at h2
              rw [← h2.1, hps, ← hv1, hst1, h0]
          · have herr1 : st1.savederr = some () := by
              rw [← hst1]
              exact herr2.1
            by_cases hnil : st1.saved.length = 0
            · exfalso
              have hpos1 : st1.savedpos = st1.saved.length := by omega
              rw [fillRequest_sticky st1 m () hpos1 herr1] at h2
              simp at h2
            · have hne1 : ¬st1.savedpos = st1.saved.length := by omega
              rw [fillRequest_buffered st1 m hne1] at h2
              rw [fillTail_skip st1 m (by
                intro hcc
                have hn0 := hcc.2
                rw [herr1] at hn0
                simp at hn0)] at h2
              simp only [Prod.mk.injEq, Except.ok.injEq] at h2
              rw [← h2.1, hps, ← hv1, hst1, h0]
    · rw [fillRequest_sticky st n e0 hpos herr] at h1
      simp at h1
  · rw [fillRequest_buffered st n hpos] at h1
    by_cases hc : st.saved.length < st.savedpos + n ∧ st.savederr.isNone = true
    · rw [fillTail_run st n hc] at h1
      simp only [Prod.mk.injEq, Except.ok.injEq] at h1
      obtain ⟨hv1, hst1⟩ := h1
      have hps : st1.savedpos = st.savedpos := by
        rw [← hst1]
        exact fillLoop_savedpos _ _
      rcases fillLoop_reach st (st.savedpos + n) with hlen | herr2
      · rw [hst1] at hlen
        by_cases heq1 : st1.savedpos = st1.saved.length
        · have hn : n = 0 := by omega
          simp [hn]
        · rw [fillRequest_buffered st1 m heq1] at h2
          rw [fillTail_skip st1 m (by
            intro hcc
            have hl := hcc.1
            omega)] at h2
          simp only [Prod.mk.injEq, Except.ok.injEq] at h2
          rw [← h2.1, hps, ← hv1, hst1]
      · have herr1 : st1.savederr = some () := by
          rw [← hst1]
          exact herr2.1
        by_cases heq1 : st1.savedpos = st1.saved.length
        · exfalso
          rw [fillRequest_sticky st1 m () heq1 herr1] at h2
          simp at h2
        · rw [fillRequest_buffered st1 m heq1] at h2
          rw [fillTail_skip st1 m (by
            intro hcc
            have hn0 := hcc.2
            rw [herr1] at hn0
            simp at hn0)] at h2
          simp only [Prod.mk.injEq, Except.ok.injEq] at h2
          rw [← h2.1, hps, ← hv1, hst1]
    · rw [fillTail_skip st n hc] at h1
      simp only [Prod.mk.injEq, Except.ok.injEq] at h1
      obtain ⟨hv1, hst1⟩ := h1
      have hpos1 : ¬st1.savedpos = st1.saved.length := by
        rw [← hst1]
        exact hpos
      rw [fillRequest_buffered st1 m hpos1] at h2
      rw [fillTail_skip st1 m (by
        intro hcc
        have hl := hcc.1
        have hn0 := hcc.2
        rw [← hst1] at hl hn0
        rcases he : st.savederr with _ | e0
        · rw [he] at hc
          simp only [Option.isNone_none, and_true] at hc
          omega
        · rw [he] at hn0
          simp at hn0)] at h2
      simp only [Prod.mk.injEq, Except.ok.injEq] at h2
      rw [← h2.1, ← hv1, ← hst1]

/-- Witness for C4 at a concrete state: the buffer holds two delivered bytes
and a recorded error, which the next `fill_request` surfaces and clears. -/
theorem c4_sticky_error_replay_witness :
    fillRequest ⟨⟨[], []⟩, [1, 2], 2, some ()⟩ 0 =
      (.error (), ⟨⟨[], []⟩, [1, 2], 2, none⟩) :=
  (c4_sticky_error_replay ⟨⟨[], []⟩, [1, 2], 2, some ()⟩ 0).2.2 () rfl rfl

/-- Witness for C6 at a concrete state: a one-byte source cannot satisfy a
three-byte request; the short view comes with the terminal condition recorded
and the source drained. -/
theorem c6_fill_request_sufficiency_witness :
    ((fillRequest ⟨⟨[5], []⟩, [], 0, none⟩ 3).2.savederr.isSome = true) ∧
      (fillRequest ⟨⟨[5], []⟩, [], 0, none⟩ 3).2.src = ⟨[], []⟩ := by
  have heval : fillRequest ⟨⟨[5], []⟩, [], 0, none⟩ 3 =
      (.ok [5], ⟨⟨[], []⟩, [5], 0, some ()⟩) := by
    simp [fillRequest, fillTail, fillLoop, SimulatedBuffer.fill, SimulatedBuffer.consume]
  have h := c6_fill_request_sufficiency ⟨⟨[5], []⟩, [], 0, none⟩ 3
    [5] ⟨⟨[], []⟩, [5], 0, some ()⟩ heval (by decide)
  rw [heval]
  exact ⟨h.1, h.2 rfl⟩

/-- Witness for C7 at a concrete state: requesting 2 then 1 bytes over a
single three-byte chunk returns views agreeing on their first 2 bytes. -/
theorem c7_lookahead_consistency_witness :
    ([1, 2, 3] : List Byte).take 2 = ([1, 2, 3] : List Byte).take 2 := by
  have heval : fillRequest ⟨⟨[1, 2, 3], []⟩, [], 0, none⟩ 2 =
      (.ok [1, 2, 3], ⟨⟨[1, 2, 3], []⟩, [], 0, none⟩) := by
    simp [fillRequest, fillTail, fillLoop, SimulatedBuffer.fill, SimulatedBuffer.consume]
  have heval1 : fillRequest ⟨⟨[1, 2, 3], []⟩, [], 0, none⟩ 1 =
      (.ok [1, 2, 3], ⟨⟨[1, 2, 3], []⟩, [], 0, none⟩) := by
    simp [fillRequest, fillTail, fillLoop, SimulatedBuffer.fill, SimulatedBuffer.consume]
  exact c7_lookahead_consistency ⟨⟨[1, 2, 3], []⟩, [], 0, none⟩
    ⟨⟨[1, 2, 3], []⟩, [], 0, none⟩ ⟨⟨[1, 2, 3], []⟩, [], 0, none⟩ 2 1
    [1, 2, 3] [1, 2, 3] (by decide) heval heval1

/-- `std::str::utf8_char_width`: the encoded width implied by a lead byte
(0 for continuation bytes and bytes that can never start a codepoint). -/
def utf8CharWidth (b : Byte) : Nat :=
  if b < 0x80 then 1
  else if b < 0xC2 then 0
  else if b < 0xE0 then 2
  else if b < 0xF0 then 3
  else if b < 0xF5 then 4
  else 0

/-- Decode one UTF-8 codepoint from the front of a byte list, validating the
continuation bytes and the ranges that exclude overlong forms, surrogates and
values above U+10FFFF (the checks performed by `std::str::is_utf8`).  Returns
the character and its encoded width. -/
def utf8DecodeOne : List Byte → Option (Char × Nat)
  | [] => none
  | b :: bs =>
    if b < 0x80 then some (Char.ofNat b, 1)
    else if b < 0xC2 then none
    else if b < 0xE0 then
      match bs with
      | b2 :: _ =>
        if 0x80 ≤ b2 ∧ b2 < 0xC0 then
          some (Char.ofNat ((b - 0xC0) * 0x40 + (b2 - 0x80)), 2)
        else none
      | _ => none
    else if b < 0xF0 then
      match bs with
      | b2 :: b3 :: _ =>
        if ((if b = 0xE0 then 0xA0 else 0x80) ≤ b2 ∧
              b2 < (if b = 0xED then 0xA0 else 0xC0)) ∧
            (0x80 ≤ b3 ∧ b3 < 0xC0) then
          some (Char.ofNat ((b - 0xE0) * 0x1000 + (b2 - 0x80) * 0x40 + (b3 - 0x80)), 3)
        else none
      | _ => none
    else if b < 0xF5 then
      match bs with
      | b2 :: b3 :: b4 :: _ =>
        if ((if b = 0xF0 then 0x90 else 0x80) ≤ b2 ∧
              b2 < (if b = 0xF4 then 0x90 else 0xC0)) ∧
            (0x80 ≤ b3 ∧ b3 < 0xC0) ∧ (0x80 ≤ b4 ∧ b4 < 0xC0) then
          some (Char.ofNat ((b - 0xF0) * 0x40000 + (b2 - 0x80) * 0x1000 +
            (b3 - 0x80) * 0x40 + (b4 - 0x80)), 4)
        else none
      | _ => none
    else none

/-- Decode a whole byte list as UTF-8, pairing each character with its byte
offset (the `char_indices` view); `none` when the bytes are not well-formed.
A decoded width is always at least 1, so dropping `w - 1` of the tail equals
dropping `w` of the whole list. -/
def utf8ListFrom (off : Nat) : List Byte → Option (List (Nat × Char))
  | [] => some []
  | b :: bs =>
    match utf8DecodeOne (b :: bs) with
    | none => none
    | some (c, w) =>
      match utf8ListFrom (off + w) (bs.drop (w - 1)) with
      | none => none
      | some l => some ((off, c) :: l)
termination_by bs => bs.length
decreasing_by
  simp only [List.length_cons, List.length_drop]
  omega

/-- `str::from_utf8` followed by `char_indices`, from byte offset 0. -/
def utf8List (bs : List Byte) : Option (List (Nat × Char)) :=
  utf8ListFrom 0 bs

/-- `LookaheadBuffer::peek_byte` (lines 152-156 of `buffer.rs`). -/
def peekByte (st : LookaheadBuffer) : Except Unit (Option Byte) × LookaheadBuffer :=
  match fillRequest st 1 with
  | (.error e, st1) => (.error e, st1)
  | (.ok buf, st1) =>
    match buf with
    | [] => (.ok none, st1)
    | b :: _ => (.ok (some b), st1)

/-- `LookaheadBuffer::peek_char` (lines 158-175 of `buffer.rs`): read the lead
byte, derive the encoded width, request that many bytes, and decode; any
shortfall or invalid sequence yields `none` rather than a corrupt decode. -/
def peekChar (st : LookaheadBuffer) : Except Unit (Option Char) × LookaheadBuffer :=
  match fillRequest st 1 with
  | (.error e, st1) => (.error e, st1)
  | (.ok buf, st1) =>
    match buf with
    | [] => (.ok none, st1)
    | b :: _ =>
      let width := utf8CharWidth b
      if width = 1 then (.ok (some (Char.ofNat b)), st1)
      else if width = 0 then (.ok none, st1)
      else
        match fillRequest st1 width with
        | (.error e, st2) => (.error e, st2)
        | (.ok buf2, st2) =>
          if buf2.length < width then (.ok none, st2)
          else
            match utf8List (buf2.take width) with
            | some ((_, c) :: _) => (.ok (some c), st2)
            | _ => (.ok none, st2)

/-- `Alignment` from `parse.rs`. -/
inductive Alignment where
  | AlignLeft
  | AlignRight
  | AlignCenter
  | AlignUnknown
deriving DecidableEq, Repr

/-- Discriminant of `Flags::FlagSignPlus` (used as a bit index). -/
def flagSignPlus : Nat := 0

/-- Discriminant of `Flags::FlagSignMinus`. -/
def flagSignMinus : Nat := 1

/-- Discriminant of `Flags::FlagAlternate`. -/
def flagAlternate : Nat := 2

/-- The per-argument part of `Scanner` in `rt.rs` (packed flags, fill, align,
width); the wrapped `LookaheadBuffer` is threaded separately. -/
structure ScannerSpec where
  flags : Nat
  fill : Option Char
  align : Alignment
  width : Option Nat
deriving DecidableEq, Repr

/-- Outcome of a runtime scanning operation: a value, a propagated `IoError`,
a Rust panic (a failed `assert!` or `unwrap`), or exhausted fuel (meaning the
Rust loop would still be running). -/
inductive RtResult (α : Type) where
  | ok (a : α)
  | ioError
  | panicked
  | fuelOut
deriving DecidableEq, Repr

/-- `Char::encode_utf8`. -/
def utf8Encode (c : Char) : List Byte :=
  let n := c.toNat
  if n < 0x80 then [n]
  else if n < 0x800 then [0xC0 + n / 0x40, 0x80 + n % 0x40]
  else if n < 0x10000 then
    [0xE0 + n / 0x1000, 0x80 + n / 0x40 % 0x40, 0x80 + n % 0x40]
  else
    [0xF0 + n / 0x40000, 0x80 + n / 0x1000 % 0x40, 0x80 + n / 0x40 % 0x40, 0x80 + n % 0x40]

/-- `LookaheadBuffer::read_pad_byte_if` (lines 125-150 of `buffer.rs`): skip
and count leading bytes matching the predicate, stopping at the first
non-matching byte (consuming only the matching run from the final view) or at
an empty view. -/
def readPadByteIf (isPad : Byte → Bool) :
    Nat → Nat → LookaheadBuffer → RtResult (Nat × LookaheadBuffer)
  | 0, _, _ => .fuelOut
  | fuel + 1, consumed, st =>
    match fillRequest st 1 with
    | (.error _, _) => .ioError
    | (.ok buf, st1) =>
      if buf.isEmpty then .ok (consumed, st1)
      else
        match buf.findIdx? (fun ch => !isPad ch) with
        | some i => .ok (consumed + i, st1.consume i)
        | none => readPadByteIf isPad fuel (consumed + buf.length) (st1.consume buf.length)

/-- The inner byte comparison of `read_pad_char`: walk the view against the
cyclically repeated encoding `padbuf`, returning the absolute index and cycle
offset of the first mismatch. -/
def padMismatch (padbuf : List Byte) : Nat → Nat → List Byte → Option (Nat × Nat)
  | _, _, [] => none
  | i, offset, ch :: rest =>
    if padbuf.getD offset 0 ≠ ch then some (i, offset)
    else padMismatch padbuf (i + 1) (if offset + 1 = padbuf.length then 0 else offset + 1) rest

/-- The multi-byte loop of `LookaheadBuffer::read_pad_char` (lines 93-122):
request one encoded pad at a time, compare whole repetitions (leaving the last
`len % padlen` bytes for the next round), consume the matched prefix. -/
def readPadCharLoop (padbuf : List Byte) (padlen : Nat) :
    Nat → Nat → LookaheadBuffer → RtResult (Nat × LookaheadBuffer)
  | 0, _, _ => .fuelOut
  | fuel + 1, consumed, st =>
    match fillRequest st padlen with
    | (.error _, _) => .ioError
    | (.ok buf, st1) =>
      if buf.length < padlen then .ok (consumed, st1)
      else
        let nchars := buf.length / padlen
        let upto := nchars * padlen
        match padMismatch padbuf 0 0 (buf.take upto) with
        | some (i, offset) =>
          .ok (consumed + (i - offset) / padlen, st1.consume (i - offset))
        | none => readPadCharLoop padbuf padlen fuel (consumed + nchars) (st1.consume upto)

/-- `LookaheadBuffer::read_pad_char` (lines 82-123): single-byte pads take the
byte-predicate fast path, larger ones compare against the UTF-8 encoding. -/
def readPadChar (fuel : Nat) (pad : Char) (st : LookaheadBuffer) :
    RtResult (Nat × LookaheadBuffer) :=
  if pad.toNat < 128 then readPadByteIf (fun ch => ch == pad.toNat) fuel 0 st
  else
    let padbuf := utf8Encode pad
    readPadCharLoop padbuf padbuf.length fuel 0 st

/-- `Scanner::skip_pad` (lines 16-24 of `rt.rs`): skip the fill codepoint when
one is set, otherwise generic space/tab/CR/LF bytes. -/
def skipPad (fuel : Nat) (spec : ScannerSpec) (st : LookaheadBuffer) :
    RtResult (Nat × LookaheadBuffer) :=
  match spec.fill with
  | some ch => readPadChar fuel ch st
  | none => readPadByteIf (fun ch => ch == 32 || ch == 9 || ch == 13 || ch == 10) fuel 0 st

/-- `Scanner::skip_prepad` (lines 26-31 of `rt.rs`). -/
def skipPrepad (fuel : Nat) (spec : ScannerSpec) (st : LookaheadBuffer) :
    RtResult (Nat × LookaheadBuffer) :=
  match spec.align with
  | .AlignLeft => skipPad fuel spec st
  | .AlignCenter => skipPad fuel spec st
  | _ => .ok (0, st)

/-- `Scanner::skip_postpad` (lines 33-38 of `rt.rs`). -/
def skipPostpad (fuel : Nat) (spec : ScannerSpec) (st : LookaheadBuffer) :
    RtResult (Nat × LookaheadBuffer) :=
  match spec.align with
  | .AlignRight => skipPad fuel spec st
  | .AlignCenter => skipPad fuel spec st
  | _ => .ok (0, st)

/-- `char::is_whitespace` (the Unicode White_Space property, written out). -/
def uniIsWhitespace (c : Char) : Bool :=
  let n := c.toNat
  (0x9 ≤ n && n ≤ 0xD) || n == 0x20 || n == 0x85 || n == 0xA0 || n == 0x1680 ||
    (0x2000 ≤ n && n ≤ 0x200A) || n == 0x2028 || n == 0x2029 || n == 0x202F ||
    n == 0x205F || n == 0x3000

/-- `str::trim_right_chars` / `trim_right`: drop the maximal matching suffix. -/
def trimRightIf (p : Char → Bool) (cs : List Char) : List Char :=
  (cs.reverse.dropWhile p).reverse

/-- `Scanner::trim_postpad` (lines 40-48 of `rt.rs`). -/
def trimPostpad (spec : ScannerSpec) (buf : List Char) : List Char :=
  match spec.align with
  | .AlignRight =>
    match spec.fill with
    | some ch => trimRightIf (fun c => c == ch) buf
    | none => trimRightIf uniIsWhitespace buf
  | .AlignCenter =>
    match spec.fill with
    | some ch => trimRightIf (fun c => c == ch) buf
    | none => trimRightIf uniIsWhitespace buf
  | _ => buf

/-- States of the signed/unsigned digit scanner in `scan_signed_digits`
(`rt.rs` lines 134-139) with their Rust discriminants
(`ExpectSignOrDigit = 0`, `ExpectSign = 2`, `ExpectDigit = 4`,
`ExpectMoreDigits = 6+1`); the odd code marks the accepting state. -/
inductive SDState where
  | ExpectSignOrDigit
  | ExpectSign
  | ExpectDigit
  | ExpectMoreDigits
deriving DecidableEq, Repr

/-- The numeric encoding of a scanner state. -/
def SDState.code : SDState → Nat
  | .ExpectSignOrDigit => 0
  | .ExpectSign => 2
  | .ExpectDigit => 4
  | .ExpectMoreDigits => 7

/-- One transition of the digit-scanner state machine (`rt.rs` lines 147-157),
`none` meaning the wildcard arm `(_, _)` was taken and the byte halts the
scan.  The Rust `match` lists arms only for `ExpectSignOrDigit` with a sign or
digit and for `ExpectDigit`/`ExpectMoreDigits` with a digit; any byte seen in
state `ExpectSign` (including a sign) falls through to the wildcard. -/
def sdStep : SDState → Byte → Option SDState
  | .ExpectSignOrDigit, ch =>
    if ch = 0x2B ∨ ch = 0x2D then some .ExpectDigit
    else if 0x30 ≤ ch ∧ ch ≤ 0x39 then some .ExpectMoreDigits
    else none
  | .ExpectDigit, ch =>
    if 0x30 ≤ ch ∧ ch ≤ 0x39 then some .ExpectMoreDigits else none
  | .ExpectMoreDigits, ch =>
    if 0x30 ≤ ch ∧ ch ≤ 0x39 then some .ExpectMoreDigits else none
  | .ExpectSign, _ => none

/-- The inner `for` of the digit scan: feed bytes until one halts, returning
the final state and, when halted, the relative index of the halting byte. -/
def sdScanBytes : SDState → List Byte → SDState × Option Nat
  | state, [] => (state, none)
  | state, ch :: rest =>
    match sdStep state ch with
    | none => (state, some 0)
    | some state2 =>
      match sdScanBytes state2 rest with
      | (sf, none) => (sf, none)
      | (sf, some j) => (sf, some (j + 1))

/-- The `'reading` loop of the digit scan (`rt.rs` lines 143-160): request one
more byte of lookahead per iteration and feed the newly visible bytes to the
state machine; stop at a halting byte (at absolute offset `i + j`) or when the
buffer cannot grow. -/
def sdLoop : Nat → LookaheadBuffer → Nat → SDState →
    RtResult (Nat × SDState × LookaheadBuffer)
  | 0, _, _, _ => .fuelOut
  | fuel + 1, st, i, state =>
    match fillRequest st (i + 1) with
    | (.error _, _) => .ioError
    | (.ok buf, st1) =>
      if buf.length ≤ i then .ok (i, state, st1)
      else
        match sdScanBytes state (buf.drop i) with
        | (state2, some j) => .ok (i + j, state2, st1)
        | (state2, none) => sdLoop fuel st1 buf.length state2

/-- The inner `scan` function of `scan_signed_digits` (`rt.rs` lines 133-166):
run the state machine, accept iff the final state's discriminant is odd
(`ExpectMoreDigits`), and on accept re-request and return the matched span
(whose availability is guarded by an `assert!`). -/
def sdScan (fuel : Nat) (mandatory : Bool) (st : LookaheadBuffer) :
    RtResult (Option (List Byte) × LookaheadBuffer) :=
  match sdLoop fuel st 0 (if mandatory then .ExpectSign else .ExpectSignOrDigit) with
  | .ioError => .ioError
  | .panicked => .panicked
  | .fuelOut => .fuelOut
  | .ok (i, state, st1) =>
    if state.code % 2 = 0 then .ok (none, st1)
    else
      match fillRequest st1 i with
      | (.error _, _) => .ioError
      | (.ok buf, st2) =>
        if buf.length < i then .panicked
        else .ok (some (buf.take i), st2)

/-- `'0' ≤ c && c ≤ '9'`. -/
def isDigitChar (c : Char) : Bool := 0x30 ≤ c.toNat && c.toNat ≤ 0x39

/-- Decimal value of a digit run. -/
def digitsToNat (cs : List Char) : Nat :=
  cs.foldl (fun acc c => acc * 10 + (c.toNat - 0x30)) 0

/-- `std::from_str` for a bounded integer type (extensional model of the old
strconv path): an optional single `+`/`-` sign, then a nonempty run of decimal
digits and nothing else; `none` when the value falls outside `[lo, hi]`
(numeric overflow). -/
def fromStrInt (lo hi : Int) (cs : List Char) : Option Int :=
  match cs with
  | '+' :: ds =>
    if ds.isEmpty || !ds.all isDigitChar then none
    else if lo ≤ (digitsToNat ds : Int) ∧ (digitsToNat ds : Int) ≤ hi then
      some (digitsToNat ds) else none
  | '-' :: ds =>
    if ds.isEmpty || !ds.all isDigitChar then none
    else if lo ≤ -(digitsToNat ds : Int) ∧ -(digitsToNat ds : Int) ≤ hi then
      some (-(digitsToNat ds)) else none
  | ds =>
    if ds.isEmpty || !ds.all isDigitChar then none
    else if lo ≤ (digitsToNat ds : Int) ∧ (digitsToNat ds : Int) ≤ hi then
      some (digitsToNat ds) else none

/-- `from_str::<i8>`. -/
def fromStrI8 : List Char → Option Int := fromStrInt (-128) 127

/-- `(s.flags >> FlagSignPlus as uint) & 1 == 1`. -/
def flagBit (flags bit : Nat) : Bool := (flags >>> bit) &&& 1 == 1

/-- The body of `scan_signed_digits` after the `skip_prepad` call (`rt.rs`
lines 170-178), over an arbitrary post-prepad buffer state: run the inner
scan; on reject return no-match directly; on accept decode the span
(`from_utf8(..).unwrap()`), parse it, consume the span and skip post-padding. -/
def scanSignedCore (parse : List Char → Option Int) (fuel : Nat) (spec : ScannerSpec)
    (st : LookaheadBuffer) : RtResult (Option Int × LookaheadBuffer) :=
  match sdScan fuel (flagBit spec.flags flagSignPlus) st with
  | .ioError => .ioError
  | .panicked => .panicked
  | .fuelOut => .fuelOut
  | .ok (none, st1) => .ok (none, st1)
  | .ok (some span, st1) =>
    match utf8List span with
    | none => .panicked
    | some cs =>
      let result := parse (cs.map Prod.snd)
      let st2 := st1.consume span.length
      match skipPostpad fuel spec st2 with
      | .ioError => .ioError
      | .panicked => .panicked
      | .fuelOut => .fuelOut
      | .ok (_, st3) => .ok (result, st3)

/-- `scan_signed_digits` (`rt.rs` lines 132-179): skip pre-padding, then run
the core scan. -/
def scanSignedDigits (parse : List Char → Option Int) (fuel : Nat) (spec : ScannerSpec)
    (st : LookaheadBuffer) : RtResult (Option Int × LookaheadBuffer) :=
  match skipPrepad fuel spec st with
  | .ioError => .ioError
  | .panicked => .panicked
  | .fuelOut => .fuelOut
  | .ok (_, st1) => scanSignedCore parse fuel spec st1

/-- The walk of `drop_incomplete_utf8_suffix` (`rt.rs` lines 207-219), going
backwards from index `i` (exclusive): a lead byte of width > 1 excludes
itself (`(i, i + width)`), a one-byte char includes itself
(`(i + 1, i + 2)`), and a continuation byte keeps walking. -/
def dropIncompleteGo (buf : List Byte) : Nat → Nat × Nat
  | 0 => (0, 1)
  | i + 1 =>
    let w := utf8CharWidth (buf.getD i 0)
    if w > 1 then (i, i + w)
    else if w = 1 then (i + 1, i + 2)
    else dropIncompleteGo buf i

/-- `drop_incomplete_utf8_suffix`: the number of bytes to keep and the next
minimum request length. -/
def dropIncompleteUtf8Suffix (buf : List Byte) : Nat × Nat :=
  dropIncompleteGo buf buf.length

/-- End-of-token search of `String::scan` (`rt.rs` lines 237-245): the byte
offset of the first terminator character in the freshly decoded text. -/
def findTerm (p : Char → Bool) : List (Nat × Char) → Option Nat
  | [] => none
  | (j, c) :: rest => if p c then some j else findTerm p rest

/-- The `'reading` loop of `String::scan` (`rt.rs` lines 228-248): request
`request` bytes, stop short when unavailable, drop any incomplete UTF-8
suffix (the progress `assert!(request_ > buf.len())` is modelled as a panic
when violated), validate the new slice, and stop at the first terminator. -/
def stringScanLoop (endAtNewline : Bool) :
    Nat → LookaheadBuffer → Nat → Nat → RtResult (Option Nat × LookaheadBuffer)
  | 0, _, _, _ => .fuelOut
  | fuel + 1, st, i, request =>
    match fillRequest st request with
    | (.error _, _) => .ioError
    | (.ok buf, st1) =>
      if buf.length < request then .ok (some i, st1)
      else
        let dropped := dropIncompleteUtf8Suffix buf
        if ¬dropped.2 > buf.length then .panicked
        else
          match utf8List ((buf.take dropped.1).drop i) with
          | none => .ok (none, st1)
          | some cs =>
            match findTerm
                (fun c => if endAtNewline then c == '\r' || c == '\n'
                          else uniIsWhitespace c) cs with
            | some j => .ok (some (i + j), st1)
            | none => stringScanLoop endAtNewline fuel st1 dropped.1 dropped.2

/-- The body of `String::scan` after the `skip_prepad` call (`rt.rs` lines
223-262): run the chunk loop; an empty match with SignPlus set is no-match;
otherwise materialize the matched span, consume it and trim post-padding. -/
def stringScanCore (fuel : Nat) (spec : ScannerSpec) (st : LookaheadBuffer) :
    RtResult (Option (List Char) × LookaheadBuffer) :=
  match stringScanLoop (flagBit spec.flags flagAlternate) fuel st 0 1 with
  | .ioError => .ioError
  | .panicked => .panicked
  | .fuelOut => .fuelOut
  | .ok (none, st1) => .ok (none, st1)
  | .ok (some i, st1) =>
    if flagBit spec.flags flagSignPlus && i == 0 then .ok (none, st1)
    else
      match fillRequest st1 i with
      | (.error _, _) => .ioError
      | (.ok buf, st2) =>
        if buf.length < i then .panicked
        else
          match utf8List (buf.take i) with
          | none => .panicked
          | some cs =>
            let st3 := st2.consume i
            .ok (some (trimPostpad spec (cs.map Prod.snd)), st3)

/-- `String::scan` for `~str` (`rt.rs` lines 205-264). -/
def stringScan (fuel : Nat) (spec : ScannerSpec) (st : LookaheadBuffer) :
    RtResult (Option (List Char) × LookaheadBuffer) :=
  match skipPrepad fuel spec st with
  | .ioError => .ioError
  | .panicked => .panicked
  | .fuelOut => .fuelOut
  | .ok (_, st1) => stringScanCore fuel spec st1

/-- A `ScanSpec` with only `SignPlus` set and everything else defaulted. -/
def signPlusSpec : ScannerSpec := ⟨1 <<< flagSignPlus, none, .AlignUnknown, none⟩

/-- The all-default `ScanSpec` (`{}`): no fill, unknown alignment, no flags. -/
def defaultSpec : ScannerSpec := ⟨0, none, .AlignUnknown, none⟩

/-- `from_str::<i64>`. -/
def fromStrI64 : List Char → Option Int := fromStrInt (-(2 ^ 63)) (2 ^ 63 - 1)

/-- Reachability under `fill_request` alone: the buffer has only been asked
for lookahead, never consumed. -/
inductive FillOnly : LookaheadBuffer → LookaheadBuffer → Prop
  | refl (st : LookaheadBuffer) : FillOnly st st
  | step (st st1 st2 : LookaheadBuffer) (amt : Nat) (v : List Byte) :
      FillOnly st st1 → fillRequest st1 amt = (.ok v, st2) → FillOnly st st2

theorem FillOnly.trans {a b c : LookaheadBuffer} (h1 : FillOnly a b) (h2 : FillOnly b c) :
    FillOnly a c := by
  induction h2 with
  | refl => exact h1
  | step st1 st2 amt v hab hfr ih => exact .step _ _ _ _ _ ih hfr

theorem FillOnly.one {a b : LookaheadBuffer} {amt : Nat} {v : List Byte}
    (h : fillRequest a amt = (.ok v, b)) : FillOnly a b :=
  .step _ _ _ _ _ (.refl a) h

theorem sdLoop_fillOnly : ∀ (fuel : Nat) (st : LookaheadBuffer) (i : Nat) (state : SDState)
    (i2 : Nat) (s2 : SDState) (st1 : LookaheadBuffer),
    sdLoop fuel st i state = .ok (i2, s2, st1) → FillOnly st st1 := by
  intro fuel
  induction fuel with
  | zero =>
    intro st i state i2 s2 st1 h
    simp [sdLoop] at h
  | succ fuel ih =>
    intro st i state i2 s2 st1 h
    rw [sdLoop] at h
    rcases hfr : fillRequest st (i + 1) with ⟨res, stf⟩
    cases res with
    | error e =>
      simp only [hfr] at h
      exact RtResult.noConfusion h
    | ok buf =>
      simp only [hfr] at h
      by_cases hle : buf.length ≤ i
      · rw [if_pos hle] at h
        simp only [RtResult.ok.injEq, Prod.mk.injEq] at h
        rw [← h.2.2]
        exact FillOnly.one hfr
      · rw [if_neg hle] at h
        rcases hsb : sdScanBytes state (buf.drop i) with ⟨sf, j?⟩
        rw [hsb] at h
        cases j? with
        | some j =>
          simp only [RtResult.ok.injEq, Prod.mk.injEq] at h
          rw [← h.2.2]
          exact FillOnly.one hfr
        | none =>
          exact FillOnly.trans (FillOnly.one hfr) (ih stf buf.length sf i2 s2 st1 h)

theorem sdScan_reject_fillOnly (fuel : Nat) (mandatory : Bool) (st st1 : LookaheadBuffer)
    (h : sdScan fuel mandatory st = .ok (none, st1)) : FillOnly st st1 := by
  rw [sdScan] at h
  rcases hl : sdLoop fuel st 0 (if mandatory then .ExpectSign else .ExpectSignOrDigit)
    with ⟨⟨i, state, stl⟩⟩ | _ | _ | _
  · simp only [hl] at h
    by_cases hpar : state.code % 2 = 0
    · rw [if_pos hpar] at h
      simp only [RtResult.ok.injEq, Prod.mk.injEq] at h
      rw [← h.2]
      exact sdLoop_fillOnly fuel st 0 _ i state stl hl
    · rw [if_neg hpar] at h
      rcases hfr : fillRequest stl i with ⟨res, stf⟩
      cases res with
      | error e =>
        simp only [hfr] at h
        exact RtResult.noConfusion h
      | ok buf =>
        simp only [hfr] at h
        by_cases hlt : buf.length < i
        · rw [if_pos hlt] at h
          exact absurd h (by simp)
        · rw [if_neg hlt] at h
          exact absurd h (by simp)
  · simp only [hl] at h
    exact RtResult.noConfusion h
  · simp only [hl] at h
    exact RtResult.noConfusion h
  · simp only [hl] at h
    exact RtResult.noConfusion h

/-- C1: evaluation of the digit scan at the claim's inputs, exhibiting the
divergence.  The state machine has no arm for a sign read in state
`ExpectSign` (the wildcard halts instead of moving to `ExpectDigit`), so with
`SignPlus` set the scan rejects `123` as the claim states, but also rejects
`+123` with NoMatch instead of producing 123. -/
theorem c1_mandatory_sign_eval :
    sdStep .ExpectSign 0x2B = none ∧ sdStep .ExpectSign 0x2D = none ∧
    scanSignedDigits fromStrI64 16 signPlusSpec
        ⟨⟨[0x31, 0x32, 0x33], []⟩, [], 0, none⟩ =
      .ok (none, ⟨⟨[0x31, 0x32, 0x33], []⟩, [], 0, none⟩) ∧
    scanSignedDigits fromStrI64 16 signPlusSpec
        ⟨⟨[0x2B, 0x31, 0x32, 0x33], []⟩, [], 0, none⟩ =
      .ok (none, ⟨⟨[0x2B, 0x31, 0x32, 0x33], []⟩, [], 0, none⟩) := by
  refine ⟨rfl, rfl, ?_, ?_⟩ <;> decide

/-- C2: evaluation at the failing input.  A source delivering the two bytes
of `é` (U+00E9, encoded C3 A9) in two chunks makes `String::scan` violate its
own `assert!(request_ > buf.len())`: `drop_incomplete_utf8_suffix` excludes
the complete trailing codepoint and requests only `buf.len()` bytes.
`peek_char` on the same source decodes the codepoint intact, as the claim
demands for both operations. -/
theorem c2_utf8_boundary_eval :
    stringScan 16 defaultSpec ⟨⟨[0xC3], [[0xA9]]⟩, [], 0, none⟩ = .panicked ∧
    (peekChar ⟨⟨[0xC3], [[0xA9]]⟩, [], 0, none⟩).1 = .ok (some 'é') := by
  constructor
  · simp [stringScan, skipPrepad, stringScanCore, stringScanLoop, fillRequest, fillTail,
      fillLoop, SimulatedBuffer.fill, SimulatedBuffer.consume, dropIncompleteUtf8Suffix,
      dropIncompleteGo, utf8CharWidth, utf8List, utf8ListFrom, utf8DecodeOne, findTerm,
      flagBit, defaultSpec]
  · simp [peekChar, fillRequest, fillTail, fillLoop, SimulatedBuffer.fill,
      SimulatedBuffer.consume, utf8CharWidth, utf8List, utf8ListFrom, utf8DecodeOne]

/-- C3 counterexample: scanning `999x` as an `i8` ends the state machine in
the accepting state, but `from_str` rejects 999 (overflow), so the scan
returns NoMatch — yet the three digit bytes have been consumed from the
buffer, contradicting the claim that a NoMatch consumes nothing beyond the
skipped padding. -/
theorem c3_nomatch_consumption_counterexample :
    scanSignedDigits fromStrI8 16 defaultSpec
        ⟨⟨[0x39, 0x39, 0x39, 0x78], []⟩, [], 0, none⟩ =
      .ok (none, ⟨⟨[0x78], []⟩, [], 0, none⟩) ∧
    ((⟨[0x78], []⟩ : SimulatedBuffer) ≠ ⟨[0x39, 0x39, 0x39, 0x78], []⟩) := by
  constructor
  · simp [scanSignedDigits, skipPrepad, scanSignedCore, sdScan, sdLoop, sdScanBytes, sdStep,
      fillRequest, fillTail, fillLoop, SimulatedBuffer.fill, SimulatedBuffer.consume,
      LookaheadBuffer.consume, utf8List, utf8ListFrom, utf8DecodeOne, flagBit, flagSignPlus,
      fromStrI8, fromStrInt, isDigitChar, digitsToNat, SDState.code, skipPostpad, defaultSpec]
  · decide

/-- C3 (amended): over any post-prepad buffer state, a non-error outcome of
the digit scan is a value exactly when the inner scan accepted (the state
machine ended in the sole accepting state `ExpectMoreDigits`) and the matched
span parses — in both directions: a value implies an accepted, parsing span,
and an accepted span yields exactly the textual parser's result (a value on
parse success, NoMatch on overflow).  On a state-machine reject the scan
returns NoMatch with the buffer only filled, never consumed; on an accepted
span — whether or not the parse succeeds — the final buffer state is the one
obtained by consuming precisely the matched span and then skipping the
post-padding. -/
theorem c3_nomatch_atomicity_amended (parse : List Char → Option Int) (fuel : Nat)
    (spec : ScannerSpec) (st st2 : LookaheadBuffer) (r : Option Int)
    (h : scanSignedCore parse fuel spec st = .ok (r, st2)) :
    (∀ s : SDState, s.code % 2 = 1 ↔ s = .ExpectMoreDigits) ∧
    (∀ v, r = some v →
      ∃ span st1 cs, sdScan fuel (flagBit spec.flags flagSignPlus) st = .ok (some span, st1) ∧
        utf8List span = some cs ∧ parse (cs.map Prod.snd) = some v) ∧
    (∀ st1, sdScan fuel (flagBit spec.flags flagSignPlus) st = .ok (none, st1) →
      r = none ∧ st2 = st1 ∧ FillOnly st st2) ∧
    (∀ span st1 cs, sdScan fuel (flagBit spec.flags flagSignPlus) st = .ok (some span, st1) →
      utf8List span = some cs →
      r = parse (cs.map Prod.snd) ∧
      ∃ k, skipPostpad fuel spec (st1.consume span.length) = .ok (k, st2)) := by
  rw [scanSignedCore] at h
  refine ⟨by intro s; cases s <;> simp [SDState.code], ?_, ?_, ?_⟩
  · intro v hv
    rcases hs : sdScan fuel (flagBit spec.flags flagSignPlus) st
      with ⟨⟨span?, st1⟩⟩ | _ | _ | _ <;> simp only [hs] at h
    · cases span? with
      | none =>
        simp only [RtResult.ok.injEq, Prod.mk.injEq] at h
        rw [← h.1] at hv
        exact Option.noConfusion hv
      | some span =>
        rcases hu : utf8List span with _ | cs <;> simp only [hu] at h
        · exact RtResult.noConfusion h
        · rcases hp : skipPostpad fuel spec (st1.consume span.length)
            with ⟨⟨k, st3⟩⟩ | _ | _ | _ <;> simp only [hp] at h
          · simp only [RtResult.ok.injEq, Prod.mk.injEq] at h
            refine ⟨span, st1, cs, rfl, hu, ?_⟩
            rw [h.1, hv]
          · exact RtResult.noConfusion h
          · exact RtResult.noConfusion h
          · exact RtResult.noConfusion h
    · exact RtResult.noConfusion h
    · exact RtResult.noConfusion h
    · exact RtResult.noConfusion h
  · intro st1 hs
    simp only [hs] at h
    simp only [RtResult.ok.injEq, Prod.mk.injEq] at h
    refine ⟨h.1.symm, h.2.symm, ?_⟩
    rw [← h.2]
    exact sdScan_reject_fillOnly fuel (flagBit spec.flags flagSignPlus) st st1 hs
  · intro span st1 cs hs hu
    simp only [hs, hu] at h
    rcases hpost : skipPostpad fuel spec (st1.consume span.length)
      with ⟨⟨k, st3⟩⟩ | _ | _ | _ <;> simp only [hpost] at h
    · simp only [RtResult.ok.injEq, Prod.mk.injEq] at h
      exact ⟨h.1.symm, k, by rw [h.2]⟩
    · exact RtResult.noConfusion h
    · exact RtResult.noConfusion h
    · exact RtResult.noConfusion h

/-- Witness for the amended C3 at concrete inputs: scanning `abc` as an `i8`
rejects, and the theorem instantiates to show the outcome is NoMatch with the
buffer merely filled (no consume); scanning `12x` succeeds, and the theorem
instantiates to exhibit the accepted span whose parse yields the value 12. -/
theorem c3_nomatch_atomicity_amended_witness :
    (scanSignedCore fromStrI8 16 defaultSpec ⟨⟨[0x61, 0x62, 0x63], []⟩, [], 0, none⟩ =
        .ok (none, ⟨⟨[0x61, 0x62, 0x63], []⟩, [], 0, none⟩) ∧
      FillOnly ⟨⟨[0x61, 0x62, 0x63], []⟩, [], 0, none⟩
        ⟨⟨[0x61, 0x62, 0x63], []⟩, [], 0, none⟩) ∧
    (∃ span st1 cs,
      sdScan 16 (flagBit defaultSpec.flags flagSignPlus)
          ⟨⟨[0x31, 0x32, 0x78], []⟩, [], 0, none⟩ = .ok (some span, st1) ∧
        utf8List span = some cs ∧ fromStrI8 (cs.map Prod.snd) = some 12) := by
  refine ⟨⟨by decide, ?_⟩, ?_⟩
  · exact ((c3_nomatch_atomicity_amended fromStrI8 16 defaultSpec
      ⟨⟨[0x61, 0x62, 0x63], []⟩, [], 0, none⟩ ⟨⟨[0x61, 0x62, 0x63], []⟩, [], 0, none⟩
      none (by decide)).2.2.1 ⟨⟨[0x61, 0x62, 0x63], []⟩, [], 0, none⟩ (by decide)).2.2
  · exact (c3_nomatch_atomicity_amended fromStrI8 16 defaultSpec
      ⟨⟨[0x31, 0x32, 0x78], []⟩, [], 0, none⟩ ⟨⟨[0x78], []⟩, [], 0, none⟩
      (some 12) (by
        simp [scanSignedCore, sdScan, sdLoop, sdScanBytes, sdStep, fillRequest, fillTail,
          fillLoop, SimulatedBuffer.fill, SimulatedBuffer.consume, LookaheadBuffer.consume,
          utf8List, utf8ListFrom, utf8DecodeOne, utf8CharWidth, flagBit, flagSignPlus,
          fromStrI8, fromStrInt, isDigitChar, digitsToNat, SDState.code, skipPostpad,
          defaultSpec])).2.1 12 rfl

/-- `char::is_XID_start`.  Modelled exactly on ASCII, where XID_Start is the
letters; non-ASCII identifier codepoints do not occur in any claim input and
do not affect the shape invariants proved below. -/
def xidStart (c : Char) : Bool := c.isAlpha

/-- `char::is_XID_continue`: on ASCII, letters, digits and `_`. -/
def xidContinue (c : Char) : Bool := c.isAlphanum || c == '_'

/-- `str::trim_left`. -/
def trimLeft (cs : List Char) : List Char := cs.dropWhile uniIsWhitespace

/-- `str::trim` (both ends). -/
def trim (cs : List Char) : List Char := trimRightIf uniIsWhitespace (trimLeft cs)

/-- `Position` from `parse.rs`. -/
inductive Position where
  | ArgumentNext
  | ArgumentIs (idx : Nat)
  | ArgumentNamed (name : List Char)
  | ArgumentSuppress
deriving DecidableEq, Repr

/-- `ScanSpec` from `parse.rs`. -/
structure ScanSpec where
  fill : Option Char
  align : Alignment
  flags : Nat
  width : Option Nat
  ty : List Char
deriving DecidableEq, Repr

/-- `Argument` from `parse.rs`. -/
structure Argument where
  position : Position
  scan : ScanSpec
deriving DecidableEq, Repr

/-- `Piece` from `parse.rs`. -/
inductive Piece where
  | String (s : List Char)
  | Whitespace
  | Argument (arg : Argument)
deriving DecidableEq, Repr

/-- The parser's textual errors, one tag per distinct `Err(...)` site. -/
inductive ParseErr where
  | prematureEnd
  | unexpectedRBrace
  | unfinishedEscape
  | invalidScanSpec
  | unexpectedAfterPosition
deriving DecidableEq, Repr

/-- `parse_uint` (`parse.rs` lines 49-60), with the unsigned type's maximum
`umax` as a parameter: take the leading digit run, parse it with
`from_str::<uint>` (which yields `None` exactly on numeric overflow). -/
def parseUint (umax : Nat) (s : List Char) : Option (Nat × List Char) :=
  let last := (s.findIdx? (fun c => !isDigitChar c)).getD s.length
  if last = 0 then none
  else
    let v := digitsToNat (s.take last)
    if v ≤ umax then some (v, s.drop last) else none

/-- `parse_ident` (`parse.rs` lines 62-77): an XID_Start codepoint followed by
XID_Continue codepoints. -/
def parseIdent (s : List Char) : Option (List Char × List Char) :=
  match s with
  | [] => none
  | c :: rest =>
    if !xidStart c then none
    else some (c :: rest.takeWhile xidContinue, rest.dropWhile xidContinue)

/-- The position block of `parse_argument` (`parse.rs` lines 86-96); the
caller guarantees a nonempty input (the `[]` arm is unreachable). -/
def parsePosition (umax : Nat) (s : List Char) : Option Position × List Char :=
  match s with
  | [] => (none, s)
  | c0 :: srest =>
    if c0 = '*' then (some .ArgumentSuppress, srest)
    else if isDigitChar c0 then
      match parseUint umax s with
      | some (v, s2) => (some (.ArgumentIs v), s2)
      | none => (none, s)
    else
      match parseIdent s with
      | some (id, s2) => (some (.ArgumentNamed id), s2)
      | none => (none, s)

/-- The scan-spec body of `parse_argument` (`parse.rs` lines 106-157), applied
to the spec text after the leading `:`: resolve fill/alignment (two-codepoint
try, then lone alignment, then fall back to the left-trimmed spec), then sign
flag, `#`, width, type identifier, and reject any trailing garbage. -/
def parseSpecBody (umax : Nat) (spec1 : List Char) : Except ParseErr ScanSpec :=
  let spec2 := trimLeft spec1
  let fa : Option Char × Alignment × List Char :=
    match spec2 with
    | [] => (none, .AlignUnknown, spec2)
    | c1 :: r1 =>
      let s1 := trimLeft r1
      match s1 with
      | [] =>
        if c1 = '<' then (none, .AlignLeft, s1)
        else if c1 = '^' then (none, .AlignCenter, s1)
        else if c1 = '>' then (none, .AlignRight, s1)
        else (none, .AlignUnknown, spec2)
      | c2 :: r2 =>
        let s2 := trimLeft r2
        if c2 = '<' then (some c1, .AlignLeft, s2)
        else if c2 = '^' then (some c1, .AlignCenter, s2)
        else if c2 = '>' then (some c1, .AlignRight, s2)
        else if c1 = '<' then (none, .AlignLeft, s1)
        else if c1 = '^' then (none, .AlignCenter, s1)
        else if c1 = '>' then (none, .AlignRight, s1)
        else (none, .AlignUnknown, spec2)
  let fill := fa.1
  let align := fa.2.1
  let s3 := fa.2.2
  let fs : Nat × List Char :=
    match s3 with
    | '+' :: r => (1 <<< flagSignPlus, trimLeft r)
    | '-' :: r => (1 <<< flagSignMinus, trimLeft r)
    | _ => (0, s3)
  let fs2 : Nat × List Char :=
    match fs.2 with
    | '#' :: r => (fs.1 ||| (1 <<< flagAlternate), trimLeft r)
    | _ => (fs.1, fs.2)
  let s6 := trimLeft fs2.2
  let ws : Option Nat × List Char :=
    match parseUint umax s6 with
    | some (w, r) => (some w, trimLeft r)
    | none => (none, s6)
  let s8 := trimLeft ws.2
  let tys : List Char × List Char :=
    match parseIdent s8 with
    | some (id, r) => (id, r)
    | none => ([], s8)
  if trim tys.2 = [] then
    .ok ⟨fill, align, fs2.1, ws.1, tys.1⟩
  else .error .invalidScanSpec

/-- `parse_argument` (`parse.rs` lines 80-166), on the text after the opening
brace: trim, parse the optional position, find the matching `\x7d`, then
either parse the `:`-introduced scan spec or require the rest to be blank. -/
def parseArgument (umax : Nat) (s0 : List Char) : Except ParseErr (Argument × List Char) :=
  match trimLeft s0 with
  | [] => .error .prematureEnd
  | c0 :: srest =>
    let ps := parsePosition umax (c0 :: srest)
    match ps.2.findIdx? (fun c => c == '\x7d') with
    | none => .error .prematureEnd
    | some idx =>
      let spec := ps.2.take idx
      let remaining := ps.2.drop (idx + 1)
      match spec with
      | ':' :: spec1 =>
        match parseSpecBody umax spec1 with
        | .error e => .error e
        | .ok sc => .ok (⟨ps.1.getD .ArgumentNext, sc⟩, remaining)
      | _ =>
        if trim spec = [] then
          .ok (⟨ps.1.getD .ArgumentNext, ⟨none, .AlignUnknown, 0, none, []⟩⟩, remaining)
        else .error .unexpectedAfterPosition

/-- The character class `['\\', '\x7b', '\x7d', ' ', '\t', '\r', '\n']` that
`parse_fmt` searches for. -/
def isSpecialChar (c : Char) : Bool :=
  c == '\\' || c == '\x7b' || c == '\x7d' || c == ' ' || c == '\t' || c == '\r' || c == '\n'

/-- `s.slice_from(start).find(...)` adjusted back to an absolute index. -/
def findSpecial (s : List Char) (start : Nat) : Option Nat :=
  ((s.drop start).findIdx? isSpecialChar).map (· + start)

theorem findIdxQ_lt_length {α : Type} (p : α → Bool) :
    ∀ (l : List α) (i : Nat), l.findIdx? p = some i → i < l.length := fun _ _ h =>
  (List.findIdx?_eq_some_iff_findIdx_eq.mp h).1

theorem dropWhileLen {α : Type} (p : α → Bool) :
    ∀ l : List α, (l.dropWhile p).length ≤ l.length := by
  intro l
  induction l with
  | nil => simp
  | cons x xs ih =>
    rw [List.dropWhile_cons]
    by_cases hp : p x
    · simp only [hp, if_true]
      simp only [List.length_cons]
      omega
    · simp [hp]

theorem trimLeft_length_le (s : List Char) : (trimLeft s).length ≤ s.length :=
  dropWhileLen _ s

theorem trimLeft_ne_nil_length_pos (s : List Char) (h : trimLeft s ≠ []) : 0 < s.length := by
  by_contra hlen
  have : s = [] := by
    cases s with
    | nil => rfl
    | cons a l => simp at hlen
  rw [this] at h
  exact h rfl

theorem parseUint_rem_le (umax : Nat) (s : List Char) (v : Nat) (r : List Char)
    (h : parseUint umax s = some (v, r)) : r.length ≤ s.length := by
  rw [parseUint] at h
  by_cases h0 : (s.findIdx? (fun c => !isDigitChar c)).getD s.length = 0
  · simp only [h0, if_pos rfl] at h
    exact Option.noConfusion h
  · simp only [if_neg h0] at h
    by_cases hv : digitsToNat (s.take ((s.findIdx? (fun c => !isDigitChar c)).getD s.length)) ≤ umax
    · rw [if_pos hv] at h
      simp only [Option.some.injEq, Prod.mk.injEq] at h
      rw [← h.2]
      simp
    · rw [if_neg hv] at h
      exact Option.noConfusion h

theorem parseIdent_rem_le (s : List Char) (id r : List Char)
    (h : parseIdent s = some (id, r)) : r.length ≤ s.length := by
  cases s with
  | nil => simp [parseIdent] at h
  | cons c rest =>
    rw [parseIdent] at h
    split at h
    · exact Option.noConfusion h
    · simp only [Option.some.injEq, Prod.mk.injEq] at h
      rw [← h.2]
      have := dropWhileLen xidContinue rest
      simp only [List.length_cons]
      omega

theorem parsePosition_rem_le (umax : Nat) (s : List Char) :
    (parsePosition umax s).2.length ≤ s.length := by
  cases s with
  | nil => simp [parsePosition]
  | cons c0 srest =>
    rw [parsePosition]
    by_cases hstar : c0 = '*'
    · simp [hstar]
    · rw [if_neg hstar]
      by_cases hdig : isDigitChar c0
      · rw [if_pos hdig]
        rcases hu : parseUint umax (c0 :: srest) with _ | ⟨v, s2⟩
        · simp
        · simpa using parseUint_rem_le umax (c0 :: srest) v s2 hu
      · rw [if_neg hdig]
        rcases hi : parseIdent (c0 :: srest) with _ | ⟨id, s2⟩
        · simp
        · simpa using parseIdent_rem_le (c0 :: srest) id s2 hi

theorem parseArgument_rem_lt (umax : Nat) (s0 : List Char) (a : Argument) (rem : List Char)
    (h : parseArgument umax s0 = .ok (a, rem)) : rem.length < s0.length := by
  rw [parseArgument] at h
  split at h
  · exact Except.noConfusion h
  · next c0 srest ht =>
    simp only at h
    rcases hidx : (parsePosition umax (c0 :: srest)).2.findIdx? (fun c => c == '\x7d')
      with _ | idx
    · rw [hidx] at h
      exact Except.noConfusion h
    · rw [hidx] at h
      have hlt : idx < (parsePosition umax (c0 :: srest)).2.length :=
        findIdxQ_lt_length _ _ idx hidx
      have hle : (parsePosition umax (c0 :: srest)).2.length ≤ (c0 :: srest).length :=
        parsePosition_rem_le umax (c0 :: srest)
      have hts : (c0 :: srest).length ≤ s0.length := by
        rw [← ht]
        exact trimLeft_length_le s0
      have hrem : ((parsePosition umax (c0 :: srest)).2.drop (idx + 1)).length <
          s0.length := by
        simp only [List.length_drop]
        have hpos : 0 < s0.length := trimLeft_ne_nil_length_pos s0 (by rw [ht]; simp)
        omega
      simp only at h
      split at h
      · split at h
        · exact Except.noConfusion h
        · simp only [Except.ok.injEq, Prod.mk.injEq] at h
          rw [← h.2]
          exact hrem
      · split at h
        · simp only [Except.ok.injEq, Prod.mk.injEq] at h
          rw [← h.2]
          exact hrem
        · exact Except.noConfusion h

/-- The loop of `parse_fmt` (`parse.rs` lines 168-210): find the next special
character from offset `start`; emit the literal run before it; then dispatch
on the character: `\\` keeps the escaped codepoint in the literal stream and
resumes the search after it, `\x7b` parses an argument, `\x7d` is an error,
and a whitespace character emits one Whitespace piece and left-trims.  When no
special character remains, the final nonempty literal is emitted. -/
def parseFmtGo (umax : Nat) (s : List Char) (start : Nat) : Except ParseErr (List Piece) :=
  match findSpecial s start with
  | none => .ok (if s = [] then [] else [Piece.String s])
  | some next =>
    let head : List Piece := if next > 0 then [Piece.String (s.take next)] else []
    match hd : s.drop next with
    | [] => .ok head
    | c :: s2 =>
      if c = '\\' then
        if s2.isEmpty then .error .unfinishedEscape
        else
          match parseFmtGo umax s2 1 with
          | .error e => .error e
          | .ok ps => .ok (head ++ ps)
      else if c = '\x7b' then
        match harg : parseArgument umax s2 with
        | .error e => .error e
        | .ok (arg, rem) =>
          match parseFmtGo umax rem 0 with
          | .error e => .error e
          | .ok ps => .ok (head ++ Piece.Argument arg :: ps)
      else if c = '\x7d' then .error .unexpectedRBrace
      else
        match parseFmtGo umax (trimLeft s2) 0 with
        | .error e => .error e
        | .ok ps => .ok (head ++ Piece.Whitespace :: ps)
termination_by s.length
decreasing_by
  · have hlen : (s.drop next).length = s2.length + 1 := by rw [hd]; rfl
    simp only [List.length_drop] at hlen
    omega
  · have hlen : (s.drop next).length = s2.length + 1 := by rw [hd]; rfl
    simp only [List.length_drop] at hlen
    have := parseArgument_rem_lt umax s2 arg rem harg
    omega
  · have hlen : (s.drop next).length = s2.length + 1 := by rw [hd]; rfl
    simp only [List.length_drop] at hlen
    have := trimLeft_length_le s2
    omega

/-- `parse_fmt` (`parse.rs` lines 168-210). -/
def parseFmt (umax : Nat) (s : List Char) : Except ParseErr (List Piece) :=
  parseFmtGo umax s 0

/-- `uint::MAX` on a 64-bit target (the overflow bound of `from_str::<uint>`). -/
def uintMax : Nat := 2 ^ 64 - 1

instance instDecEqExcept {e a : Type} [DecidableEq e] [DecidableEq a] :
    DecidableEq (Except e a) := fun x y =>
  match x, y with
  | .error e1, .error e2 =>
    if h : e1 = e2 then .isTrue (by rw [h]) else .isFalse (fun hc => h (Except.error.inj hc))
  | .ok a1, .ok a2 =>
    if h : a1 = a2 then .isTrue (by rw [h]) else .isFalse (fun hc => h (Except.ok.inj hc))
  | .error _, .ok _ => .isFalse (fun hc => Except.noConfusion hc)
  | .ok _, .error _ => .isFalse (fun hc => Except.noConfusion hc)

/-- Fuel-indexed executable twin of `parseFmtGo` (same branches, `none` when
the fuel runs out), used to evaluate the parser on concrete inputs by
`decide`. -/
def parseFmtGoF (umax : Nat) : Nat → List Char → Nat → Option (Except ParseErr (List Piece))
  | 0, _, _ => none
  | fuel + 1, s, start =>
    match findSpecial s start with
    | none => some (.ok (if s = [] then [] else [Piece.String s]))
    | some next =>
      let head : List Piece := if next > 0 then [Piece.String (s.take next)] else []
      match s.drop next with
      | [] => some (.ok head)
      | c :: s2 =>
        if c = '\\' then
          if s2.isEmpty then some (.error .unfinishedEscape)
          else
            match parseFmtGoF umax fuel s2 1 with
            | none => none
            | some (.error e) => some (.error e)
            | some (.ok ps) => some (.ok (head ++ ps))
        else if c = '\x7b' then
          match parseArgument umax s2 with
          | .error e => some (.error e)
          | .ok (arg, rem) =>
            match parseFmtGoF umax fuel rem 0 with
            | none => none
            | some (.error e) => some (.error e)
            | some (.ok ps) => some (.ok (head ++ Piece.Argument arg :: ps))
        else if c = '\x7d' then some (.error .unexpectedRBrace)
        else
          match parseFmtGoF umax fuel (trimLeft s2) 0 with
          | none => none
          | some (.error e) => some (.error e)
          | some (.ok ps) => some (.ok (head ++ Piece.Whitespace :: ps))

theorem parseFmtGoF_sound (umax : Nat) : ∀ (fuel : Nat) (s : List Char) (start : Nat)
    (r : Except ParseErr (List Piece)),
    parseFmtGoF umax fuel s start = some r → parseFmtGo umax s start = r := by
  intro fuel
  induction fuel with
  | zero =>
    intro s start r h
    simp [parseFmtGoF] at h
  | succ fuel ih =>
    intro s start r h
    rw [parseFmtGoF] at h
    rw [parseFmtGo]
    rcases hfs : findSpecial s start with _ | next
    · simp only [hfs] at h ⊢
      exact Option.some.inj h
    · simp only [hfs] at h ⊢
      rcases hdr : s.drop next with _ | ⟨c, s2⟩
      · simp only [hdr] at h ⊢
        exact Option.some.inj h
      · simp only [hdr] at h ⊢
        by_cases hbs : c = '\\'
        · rw [if_pos hbs] at h ⊢
          by_cases hemp : s2.isEmpty
          · rw [if_pos hemp] at h ⊢
            exact Option.some.inj h
          · rw [if_neg hemp] at h ⊢
            rcases hrec : parseFmtGoF umax fuel s2 1 with _ | r2
            · rw [hrec] at h
              exact Option.noConfusion h
            · rw [hrec] at h
              rw [ih s2 1 r2 hrec]
              cases r2 with
              | error e => exact Option.some.inj h
              | ok ps => exact Option.some.inj h
        · rw [if_neg hbs] at h ⊢
          by_cases hlb : c = '\x7b'
          · rw [if_pos hlb] at h ⊢
            rcases harg : parseArgument umax s2 with e | ⟨arg, rem⟩
            · simp only [harg] at h ⊢
              exact Option.some.inj h
            · simp only [harg] at h ⊢
              rcases hrec : parseFmtGoF umax fuel rem 0 with _ | r2
              · rw [hrec] at h
                exact Option.noConfusion h
              · rw [hrec] at h
                rw [ih rem 0 r2 hrec]
                cases r2 with
                | error e => exact Option.some.inj h
                | ok ps => exact Option.some.inj h
          · rw [if_neg hlb] at h ⊢
            by_cases hrb : c = '\x7d'
            · rw [if_pos hrb] at h ⊢
              exact Option.some.inj h
            · rw [if_neg hrb] at h ⊢
              rcases hrec : parseFmtGoF umax fuel (trimLeft s2) 0 with _ | r2
              · rw [hrec] at h
                exact Option.noConfusion h
              · rw [hrec] at h
                rw [ih (trimLeft s2) 0 r2 hrec]
                cases r2 with
                | error e => exact Option.some.inj h
                | ok ps => exact Option.some.inj h

theorem parseFmt_of_parseFmtGoF (umax : Nat) (fuel : Nat) (s : List Char)
    (r : Except ParseErr (List Piece)) (h : parseFmtGoF umax fuel s 0 = some r) :
    parseFmt umax s = r := by
  rw [parseFmt]
  exact parseFmtGoF_sound umax fuel s 0 r h

/-- C5 counterexample: in `\x7b:9 >foo\x7d` the fill candidate `9` is
followed by a space, not an alignment symbol, yet the parser still records
fill `'9'` with Right alignment (the two trim_lefts inside the two-codepoint
try skip whitespace), refuting "recognized only when immediately followed by
an alignment symbol". -/
theorem c5_fill_align_counterexample :
    parseFmt uintMax (String.toList "\x7b:9 >foo\x7d") =
      .ok [Piece.Argument ⟨.ArgumentNext,
        ⟨some '9', .AlignRight, 0, none, ['f', 'o', 'o']⟩⟩] :=
  parseFmt_of_parseFmtGoF uintMax 4 _ _ (by decide)

/-- C5 (amended): fill/align resolution as the code implements it — first the
two-codepoint try (fill, then alignment symbol, with whitespace permitted
between them), then a lone alignment symbol, otherwise no fill and no
alignment with the remaining grammar reinterpreted from the left-trimmed
spec (here `\x7b:+foo\x7d` reinterprets `+` as the sign flag).  The claim's
concrete examples hold as stated. -/
theorem c5_fill_align_resolution_amended :
    parseFmt uintMax (String.toList "\x7b:9>foo\x7d") =
      .ok [Piece.Argument ⟨.ArgumentNext,
        ⟨some '9', .AlignRight, 0, none, ['f', 'o', 'o']⟩⟩] ∧
    parseFmt uintMax (String.toList "\x7b:>foo\x7d") =
      .ok [Piece.Argument ⟨.ArgumentNext,
        ⟨none, .AlignRight, 0, none, ['f', 'o', 'o']⟩⟩] ∧
    parseFmt uintMax (String.toList "\x7b:>>>foo\x7d") = .error .invalidScanSpec ∧
    parseFmt uintMax (String.toList "\x7b:9 >foo\x7d") =
      .ok [Piece.Argument ⟨.ArgumentNext,
        ⟨some '9', .AlignRight, 0, none, ['f', 'o', 'o']⟩⟩] ∧
    parseFmt uintMax (String.toList "\x7b:+foo\x7d") =
      .ok [Piece.Argument ⟨.ArgumentNext,
        ⟨none, .AlignUnknown, 1 <<< flagSignPlus, none, ['f', 'o', 'o']⟩⟩] :=
  ⟨parseFmt_of_parseFmtGoF uintMax 4 _ _ (by decide),
   parseFmt_of_parseFmtGoF uintMax 4 _ _ (by decide),
   parseFmt_of_parseFmtGoF uintMax 4 _ _ (by decide),
   parseFmt_of_parseFmtGoF uintMax 4 _ _ (by decide),
   parseFmt_of_parseFmtGoF uintMax 4 _ _ (by decide)⟩

/-- C8: the backslash escape copies the next codepoint — any codepoint,
including braces and whitespace — verbatim into the literal stream, so
`\\\x7b\\\x7d` parses to the two literal pieces, and a trailing lone
backslash is a parse error. -/
theorem c8_escape_handling :
    (∀ c : Char, parseFmt uintMax ['\\', c] = .ok [Piece.String [c]]) ∧
    parseFmt uintMax (String.toList "\\\x7b\\\x7d") =
      .ok [Piece.String ['\x7b'], Piece.String ['\x7d']] ∧
    parseFmt uintMax ['\\'] = .error .unfinishedEscape := by
  refine ⟨?_, parseFmt_of_parseFmtGoF uintMax 6 _ _ (by decide),
    parseFmt_of_parseFmtGoF uintMax 4 _ _ (by decide)⟩
  intro c
  have hinner : parseFmtGo uintMax [c] 1 = .ok [Piece.String [c]] := by
    rw [parseFmtGo]
    simp [findSpecial]
  rw [parseFmt, parseFmtGo]
  simp [findSpecial, isSpecialChar, List.findIdx?_cons, hinner]

theorem char_of_toNat_eq {c : Char} {n : Nat} (h : c.toNat = n) : c = Char.ofNat n := by
  rw [← h, Char.ofNat_toNat]

theorem isDigitChar_cases (c : Char) (h : isDigitChar c = true) :
    c = '0' ∨ c = '1' ∨ c = '2' ∨ c = '3' ∨ c = '4' ∨
      c = '5' ∨ c = '6' ∨ c = '7' ∨ c = '8' ∨ c = '9' := by
  simp only [isDigitChar, Bool.and_eq_true, decide_eq_true_eq] at h
  have hn : c.toNat = 48 ∨ c.toNat = 49 ∨ c.toNat = 50 ∨ c.toNat = 51 ∨ c.toNat = 52 ∨
      c.toNat = 53 ∨ c.toNat = 54 ∨ c.toNat = 55 ∨ c.toNat = 56 ∨ c.toNat = 57 := by omega
  rcases hn with h' | h' | h' | h' | h' | h' | h' | h' | h' | h'
  · exact Or.inl ((char_of_toNat_eq h').trans (by decide))
  · exact Or.inr (Or.inl ((char_of_toNat_eq h').trans (by decide)))
  · exact Or.inr (Or.inr (Or.inl ((char_of_toNat_eq h').trans (by decide))))
  · exact Or.inr (Or.inr (Or.inr (Or.inl ((char_of_toNat_eq h').trans (by decide)))))
  · exact Or.inr (Or.inr (Or.inr (Or.inr (Or.inl ((char_of_toNat_eq h').trans (by decide))))))
  · exact Or.inr (Or.inr (Or.inr (Or.inr (Or.inr (Or.inl
      ((char_of_toNat_eq h').trans (by decide)))))))
  · exact Or.inr (Or.inr (Or.inr (Or.inr (Or.inr (Or.inr (Or.inl
      ((char_of_toNat_eq h').trans (by decide))))))))
  · exact Or.inr (Or.inr (Or.inr (Or.inr (Or.inr (Or.inr (Or.inr (Or.inl
      ((char_of_toNat_eq h').trans (by decide)))))))))
  · exact Or.inr (Or.inr (Or.inr (Or.inr (Or.inr (Or.inr (Or.inr (Or.inr (Or.inl
      ((char_of_toNat_eq h').trans (by decide))))))))))
  · exact Or.inr (Or.inr (Or.inr (Or.inr (Or.inr (Or.inr (Or.inr (Or.inr (Or.inr
      ((char_of_toNat_eq h').trans (by decide))))))))))

theorem digit_char_facts (c : Char) (h : isDigitChar c = true) :
    uniIsWhitespace c = false ∧ xidStart c = false ∧ (c == '\x7d') = false ∧
      c ≠ '*' ∧ c ≠ '<' ∧ c ≠ '^' ∧ c ≠ '>' ∧ c ≠ '+' ∧ c ≠ '-' ∧ c ≠ '#' ∧ c ≠ ':' := by
  rcases isDigitChar_cases c h with rfl | rfl | rfl | rfl | rfl | rfl | rfl | rfl | rfl | rfl <;>
    decide

theorem dropWhileNoop {α : Type} (p : α → Bool) (l : List α)
    (h : ∀ c ∈ l, p c = false) : l.dropWhile p = l := by
  cases l with
  | nil => rfl
  | cons x xs => simp [List.dropWhile_cons, h x (by simp)]

theorem trimLeft_all_not_ws (l : List Char) (h : ∀ c ∈ l, uniIsWhitespace c = false) :
    trimLeft l = l :=
  dropWhileNoop _ l h

theorem trimRightIf_all (p : Char → Bool) (l : List Char) (h : ∀ c ∈ l, p c = false) :
    trimRightIf p l = l := by
  rw [trimRightIf, dropWhileNoop p l.reverse (by
    intro c hc
    exact h c (List.mem_reverse.mp hc)), List.reverse_reverse]

theorem trim_all_not_ws (l : List Char) (h : ∀ c ∈ l, uniIsWhitespace c = false) :
    trim l = l := by
  rw [trim, trimLeft_all_not_ws l h, trimRightIf_all _ l h]

theorem findRBrace (ds : List Char) (hdig : ∀ c ∈ ds, isDigitChar c = true) :
    (ds ++ ['\x7d']).findIdx? (fun c => c == '\x7d') = some ds.length := by
  induction ds with
  | nil => decide
  | cons d ds ih =>
    have hd : (d == '\x7d') = false := (digit_char_facts d (hdig d (by simp))).2.2.1
    rw [List.cons_append, List.findIdx?_cons]
    simp only [hd, Bool.false_eq_true, if_false, List.findIdx?_start_succ]
    rw [ih (fun c hc => hdig c (by simp [hc]))]
    simp

theorem parseUint_overflow (umax : Nat) (ds : List Char) (hne : ds ≠ [])
    (hdig : ∀ c ∈ ds, isDigitChar c = true) (hov : digitsToNat ds > umax) :
    parseUint umax ds = none := by
  rw [parseUint]
  have hfind : ds.findIdx? (fun c => !isDigitChar c) = none := by
    rw [List.findIdx?_eq_none_iff]
    intro c hc
    simp [hdig c hc]
  rw [hfind]
  simp only [Option.getD_none]
  rw [if_neg (by
    intro h0
    exact hne (List.length_eq_zero.mp h0))]
  rw [List.take_length]
  rw [if_neg (by omega)]

theorem parseIdent_digit (d : Char) (l : List Char) (hd : isDigitChar d = true) :
    parseIdent (d :: l) = none := by
  rw [parseIdent]
  simp [(digit_char_facts d hd).2.1]

theorem parseSpecBody_overflow (umax : Nat) (d : Char) (ds : List Char)
    (hdig : ∀ c ∈ d :: ds, isDigitChar c = true)
    (hov : digitsToNat (d :: ds) > umax) :
    parseSpecBody umax (d :: ds) = .error .invalidScanSpec := by
  obtain ⟨hws, hxid, hbeq, hstar, hlt, hcar, hgt, hplus, hminus, hhash, hcolon⟩ :=
    digit_char_facts d (hdig d (by simp))
  have hallws : ∀ c ∈ d :: ds, uniIsWhitespace c = false := fun c hc =>
    (digit_char_facts c (hdig c hc)).1
  have htl : trimLeft (d :: ds) = d :: ds := trimLeft_all_not_ws _ hallws
  have hpu : parseUint umax (d :: ds) = none :=
    parseUint_overflow umax (d :: ds) (by simp) hdig hov
  have hpi : parseIdent (d :: ds) = none := parseIdent_digit d ds (hdig d (by simp))
  have htr : trim (d :: ds) = d :: ds := trim_all_not_ws _ hallws
  rw [parseSpecBody]
  cases ds with
  | nil =>
    simp [show trimLeft ([] : List Char) = [] from rfl, htl, hpu, hpi, htr, hlt, hcar, hgt,
      hplus, hminus, hhash]
  | cons e es =>
    obtain ⟨hews, hexid, hebeq, hestar, helt, hecar, hegt, heplus, heminus, hehash, hecolon⟩ :=
      digit_char_facts e (hdig e (by simp))
    have htle : trimLeft (e :: es) = e :: es :=
      trimLeft_all_not_ws _ (fun c hc => hallws c (by simp [hc]))
    simp [htle, htl, hpu, hpi, htr, helt, hecar, hegt, hlt, hcar, hgt, hplus, hminus, hhash]

theorem parsePosition_colon (umax : Nat) (l : List Char) :
    parsePosition umax (':' :: l) = (none, ':' :: l) := by
  rw [parsePosition]
  rw [if_neg (by decide : ¬(':' : Char) = '*')]
  rw [if_neg (by decide : ¬isDigitChar ':' = true)]
  have hpi : parseIdent (':' :: l) = none := by
    rw [parseIdent]
    rw [if_pos (by decide)]
  rw [hpi]

theorem parseArgument_overflow (umax : Nat) (d : Char) (ds : List Char)
    (hdig : ∀ c ∈ d :: ds, isDigitChar c = true)
    (hov : digitsToNat (d :: ds) > umax) :
    parseArgument umax (':' :: ((d :: ds) ++ ['\x7d'])) = .error .invalidScanSpec := by
  have htl : trimLeft (':' :: ((d :: ds) ++ ['\x7d'])) = ':' :: ((d :: ds) ++ ['\x7d']) := by
    rw [trimLeft, List.dropWhile_cons, if_neg (by decide)]
  have hfind : (':' :: ((d :: ds) ++ ['\x7d'])).findIdx? (fun c => c == '\x7d') =
      some ((d :: ds).length + 1) := by
    rw [List.findIdx?_cons]
    simp only [show ((':' : Char) == '\x7d') = false from by decide, Bool.false_eq_true,
      if_false, List.findIdx?_start_succ]
    rw [findRBrace (d :: ds) hdig]
    simp
  have htake : (':' :: ((d :: ds) ++ ['\x7d'])).take ((d :: ds).length + 1) =
      ':' :: (d :: ds) := by
    rw [List.take_succ_cons, List.take_left]
  rw [parseArgument, htl]
  simp only [parsePosition_colon, hfind, htake]
  rw [parseSpecBody_overflow umax d ds hdig hov]

theorem parseFmt_arg_err (umax : Nat) (rest : List Char) (e : ParseErr)
    (h : parseArgument umax rest = .error e) :
    parseFmt umax ('\x7b' :: rest) = .error e := by
  rw [parseFmt, parseFmtGo]
  simp [findSpecial, isSpecialChar, List.findIdx?_cons]
  split
  next e2 heq =>
    rw [h] at heq
    injection heq with h2
    rw [← h2]
  next arg rem heq =>
    rw [h] at heq
    exact Except.noConfusion heq

/-- C9: a scan-spec whose width field is a decimal digit run overflowing the
unsigned integer type makes `parse_fmt` reject the whole format string with a
parse error: for every nonempty all-digit run whose value exceeds `umax`,
`parse_fmt` on `\x7b:run\x7d` is `Err` (the invalid-scan-spec error from the
trailing-garbage check that the failed width parse falls through to). -/
theorem c9_width_overflow (umax : Nat) (ds : List Char) (hne : ds ≠ [])
    (hdig : ∀ c ∈ ds, isDigitChar c = true) (hov : digitsToNat ds > umax) :
    parseFmt umax ('\x7b' :: ':' :: ds ++ ['\x7d']) = .error .invalidScanSpec := by
  match ds, hne with
  | d :: ds', _ =>
    exact parseFmt_arg_err umax _ _ (parseArgument_overflow umax d ds' hdig hov)

theorem c9_width_overflow_witness :
    parseFmt uintMax ('\x7b' :: ':' :: List.replicate 23 '9' ++ ['\x7d']) =
      .error .invalidScanSpec :=
  c9_width_overflow uintMax (List.replicate 23 '9') (by decide) (by decide) (by decide)

theorem findSpecial_lt (s : List Char) (start next : Nat)
    (h : findSpecial s start = some next) : next < s.length := by
  rw [findSpecial] at h
  rcases hf : (s.drop start).findIdx? isSpecialChar with _ | j
  · rw [hf] at h
    exact Option.noConfusion h
  · rw [hf] at h
    have hj := findIdxQ_lt_length _ _ _ hf
    simp only [List.length_drop] at hj
    have he : j + start = next := Option.some.inj h
    omega

theorem parseFmtGo_no_empty (umax : Nat) :
    ∀ (n : Nat) (s : List Char) (start : Nat) (pieces : List Piece),
      s.length ≤ n → parseFmtGo umax s start = .ok pieces →
      ∀ t, Piece.String t ∈ pieces → t ≠ [] := by
  intro n
  induction n with
  | zero =>
    intro s start pieces hlen h t ht
    have hs : s = [] := List.length_eq_zero.mp (Nat.le_zero.mp hlen)
    subst hs
    rw [parseFmtGo] at h
    have hfs : findSpecial [] start = none := by simp [findSpecial]
    rw [hfs] at h
    simp at h
    rw [h] at ht
    simp at ht
  | succ n ih =>
    intro s start pieces hlen h t ht
    rw [parseFmtGo] at h
    split at h
    next heq =>
      by_cases hs : s = []
      · rw [if_pos hs] at h
        have hp : pieces = [] := (Except.ok.inj h).symm
        rw [hp] at ht
        simp at ht
      · rw [if_neg hs] at h
        have hp : pieces = [Piece.String s] := (Except.ok.inj h).symm
        rw [hp] at ht
        simp only [List.mem_singleton] at ht
        have hts : t = s := by injection ht
        rw [hts]
        exact hs
    next nx heq =>
      have hlt : nx < s.length := findSpecial_lt s start nx heq
      dsimp only at h
      have hhead : ∀ u : List Char,
          Piece.String u ∈ (if nx > 0 then [Piece.String (s.take nx)] else []) →
          u ≠ [] := by
        intro u hu
        by_cases hp : nx > 0
        · rw [if_pos hp] at hu
          simp only [List.mem_singleton] at hu
          have hus : u = s.take nx := by injection hu
          rw [hus]
          intro h0
          have h3 := congrArg List.length h0
          simp only [List.length_take, List.length_nil] at h3
          omega
        · rw [if_neg hp] at hu
          simp at hu
      split at h
      next heq2 =>
        have hp : pieces = (if nx > 0 then [Piece.String (s.take nx)] else []) :=
          (Except.ok.inj h).symm
        rw [hp] at ht
        exact hhead t ht
      next c s2 heq2 =>
        have hlen2 : s2.length ≤ n := by
          have h4 := congrArg List.length heq2
          simp only [List.length_drop, List.length_cons] at h4
          omega
        by_cases hbs : c = '\\'
        · rw [if_pos hbs] at h
          by_cases hse : s2.isEmpty
          · rw [if_pos hse] at h
            exact Except.noConfusion h
          · rw [if_neg hse] at h
            split at h
            next e heq3 => exact Except.noConfusion h
            next ps heq3 =>
              have hp : pieces =
                  (if nx > 0 then [Piece.String (s.take nx)] else []) ++ ps :=
                (Except.ok.inj h).symm
              rw [hp] at ht
              rcases List.mem_append.mp ht with hh | hh
              · exact hhead t hh
              · exact ih s2 1 ps hlen2 heq3 t hh
        · rw [if_neg hbs] at h
          by_cases hlb : c = '\x7b'
          · rw [if_pos hlb] at h
            split at h
            next e heq3 => exact Except.noConfusion h
            next arg rem heq3 =>
              split at h
              next e heq4 => exact Except.noConfusion h
              next ps heq4 =>
                have hlen3 : rem.length ≤ n := by
                  have := parseArgument_rem_lt umax s2 arg rem heq3
                  omega
                have hp : pieces =
                    (if nx > 0 then [Piece.String (s.take nx)] else []) ++
                      Piece.Argument arg :: ps := (Except.ok.inj h).symm
                rw [hp] at ht
                rcases List.mem_append.mp ht with hh | hh
                · exact hhead t hh
                · rcases List.mem_cons.mp hh with hh2 | hh2
                  · exact Piece.noConfusion hh2
                  · exact ih rem 0 ps hlen3 heq4 t hh2
          · rw [if_neg hlb] at h
            by_cases hrb : c = '\x7d'
            · rw [if_pos hrb] at h
              exact Except.noConfusion h
            · rw [if_neg hrb] at h
              split at h
              next e heq3 => exact Except.noConfusion h
              next ps heq3 =>
                have hlen3 : (trimLeft s2).length ≤ n := by
                  have := trimLeft_length_le s2
                  omega
                have hp : pieces =
                    (if nx > 0 then [Piece.String (s.take nx)] else []) ++
                      Piece.Whitespace :: ps := (Except.ok.inj h).symm
                rw [hp] at ht
                rcases List.mem_append.mp ht with hh | hh
                · exact hhead t hh
                · rcases List.mem_cons.mp hh with hh2 | hh2
                  · exact Piece.noConfusion hh2
                  · exact ih (trimLeft s2) 0 ps hlen3 heq3 t hh2

/-- C10: every literal piece in a piece sequence accepted by `parse_fmt` is
nonempty — literal runs are emitted only for a positive-length stretch before
a special character or a nonempty tail, and the escape and whitespace branches
never emit an empty `String` piece. -/
theorem c10_no_empty_literals (umax : Nat) (s : List Char) (pieces : List Piece)
    (h : parseFmt umax s = .ok pieces) :
    ∀ t, Piece.String t ∈ pieces → t ≠ [] := by
  rw [parseFmt] at h
  exact parseFmtGo_no_empty umax s.length s 0 pieces (Nat.le_refl _) h

theorem c10_no_empty_literals_witness : (['a', 'b'] : List Char) ≠ [] :=
  c10_no_empty_literals uintMax (String.toList "ab\x7b\x7d")
    [Piece.String ['a', 'b'],
     Piece.Argument ⟨.ArgumentNext, ⟨none, .AlignUnknown, 0, none, []⟩⟩]
    (parseFmt_of_parseFmtGoF uintMax 4 _ _ (by decide)) ['a', 'b'] (by simp)
